import Mathlib

/-!
Verification of the notion-htracker-integration pipeline.

This file gives a shallow embedding of the core logic of the repository
(`modules/notion_client.py`): the paginated record fetcher
(`Notion.fetch_all_records`), the schema-driven row extractor
(`Notion.results_to_dataframe`), the monthly aggregator
(`Notion.aggregate_monthly_performance`) and the label-keyed upsert
(`Notion.upsert_monthly_summary`), together with theorems settling the
specification claims about them.

Conventions of the embedding:
* the remote Notion store is modelled by explicit data (a list of pages for
  a paginated source, a list of existing summary pages for the upsert);
* numeric property values are rationals (`ℚ`);
* the lenient `dateutil` parser is modelled on its ISO `YYYY-MM-DD`
  subset (which is the format Notion date properties carry), any other
  string failing to parse;
* Python exceptions are modelled with `Except`/`Option` results.
-/

namespace HTracker

/-! ### Calendar helpers (`calendar.month_name`, `strftime` formats) -/

/-- The twelve full month names, as produced by `strftime("%B")`. -/
def monthNames : List String :=
  ["January", "February", "March", "April", "May", "June",
   "July", "August", "September", "October", "November", "December"]

/-- Embeds Python's `list(calendar.month_name)`: a leading empty string
followed by the twelve month names, so that `"January"` sits at index 1. -/
def calMonthList : List String := "" :: monthNames

/-- First index of `m` in `l`, mirroring Python's `list.index` (which raises
`ValueError`, here `none`, when the element is absent). -/
def indexIn : List String → String → Option Nat
  | [], _ => none
  | s :: rest, m => if s = m then some 0 else (indexIn rest m).map (· + 1)

/-- Ordinal of a full month name: `"January" ↦ 1`, …, `"December" ↦ 12`.
Embeds both `list(calendar.month_name).index(m)` and
`datetime.strptime(m, "%B").month`. -/
def monthIndex (m : String) : Option Nat := indexIn calMonthList m

/-- Full month name of an ordinal, as `strftime("%B")` renders it. -/
def monthName (n : Nat) : String := calMonthList.getD n ""

/-- A parsed calendar date (the fields of the `datetime` the code reads). -/
structure SimpleDate where
  year : Int
  month : Nat
  day : Nat
deriving DecidableEq, Repr

/-- Splits a character list on the `-` separator. -/
def splitDash : List Char → List (List Char)
  | [] => [[]]
  | c :: rest =>
    match splitDash rest with
    | [] => [[]]
    | g :: gs => if c = '-' then [] :: g :: gs else (c :: g) :: gs

/-- Reads a non-empty all-digit character list as a natural number. -/
def digitsToNat (cs : List Char) : Option Nat :=
  if cs.isEmpty then none
  else if cs.all (fun c => c.isDigit) then
    some (cs.foldl (fun n c => 10 * n + (c.toNat - 48)) 0)
  else none

/-- Embeds `dateutil.parser.parse` on the ISO `YYYY-MM-DD` subset carried by
Notion date properties; a string outside that grammar fails to parse,
modelling the `ParserError` the real parser raises. -/
def parseDate (s : String) : Option SimpleDate :=
  match splitDash s.toList with
  | [ys, ms, ds] =>
    match digitsToNat ys, digitsToNat ms, digitsToNat ds with
    | some y, some m, some d =>
      if 1 ≤ m ∧ m ≤ 12 ∧ 1 ≤ d ∧ d ≤ 31 then some ⟨(y : Int), m, d⟩ else none
    | _, _, _ => none
  | _ => none

deriving instance DecidableEq for Except

/-- Full weekday names indexed with Sunday at 0, as `strftime("%A")` uses. -/
def weekdayNames : List String :=
  ["Sunday", "Monday", "Tuesday", "Wednesday", "Thursday", "Friday", "Saturday"]

/-- Day of the week of a date (0 = Sunday), by Sakamoto's method. -/
def dayOfWeek (y : Int) (m d : Nat) : Nat :=
  let t : List Int := [0, 3, 2, 5, 0, 3, 5, 1, 4, 6, 2, 4]
  let y' : Int := if m < 3 then y - 1 else y
  ((y' + y' / 4 - y' / 100 + y' / 400 + t.getD (m - 1) 0 + (d : Int)) % 7).toNat

/-- Full weekday name of a date, as `strftime("%A")` renders it. -/
def weekdayName (d : SimpleDate) : String :=
  weekdayNames.getD (dayOfWeek d.year d.month d.day) ""

/-! ### Record fetcher (`Notion.fetch_all_records`)

The remote paginated collection is modelled as its list of pages; the opaque
continuation token becomes the index of the next page, and `has_more` is the
remote's signal that a further page exists. -/

/-- A paginated remote collection: the sequence of pages it serves. -/
structure PagedSource (α : Type) where
  pages : List (List α)

/-- Embeds the fetch loop of `fetch_all_records`: query one page, then keep
querying with the continuation token while the response says `has_more`,
concatenating the `results` of every response in order. -/
def fetchFrom (s : PagedSource α) (i : Nat) : List α :=
  if i + 1 < s.pages.length then s.pages.getD i [] ++ fetchFrom s (i + 1)
  else s.pages.getD i []
termination_by s.pages.length - i

/-- `Notion.fetch_all_records`: the initial cursorless query starts at page 0. -/
def fetchAllRecords (s : PagedSource α) : List α := fetchFrom s 0

/-! ### Schema inferencer and row extractor
(`Notion.get_database_properties`, `Notion.results_to_dataframe`)

The declared property schema of a collection is a mapping from property name
to a type tag; a raw record maps property names to typed values.  The
extractor walks the schema-inferred date keys and number keys of each record
exactly as the Python loop does. -/

/-- Type tag of a declared database property (`v["type"]`). -/
inductive PropType
  | date
  | number
  | formula
  | title
  | other
deriving DecidableEq, Repr

/-- One declared property of a collection schema. -/
structure SchemaEntry where
  name : String
  type : PropType
deriving DecidableEq, Repr

/-- The declared field schema of a collection, in its iteration order. -/
abbrev Schema := List SchemaEntry

/-- A typed property value carried by a raw record.  A `date` value holds the
optional `date.start` string; `number` and `formula` hold the optional
numeric payload (`number` resp. `formula.number`). -/
inductive PropValue
  | date (start : Option String)
  | number (val : Option ℚ)
  | formula (val : Option ℚ)
  | other
deriving DecidableEq, Repr

/-- A raw remote record: its `properties` mapping. -/
structure RawRecord where
  props : List (String × PropValue)
deriving DecidableEq, Repr

/-- The date keys of a schema: properties whose declared type is `date`. -/
def dateKeys (sch : Schema) : List String :=
  (sch.filter (fun e => decide (e.type = PropType.date))).map SchemaEntry.name

/-- The numeric keys of a schema: properties declared `number` or `formula`. -/
def numberKeys (sch : Schema) : List String :=
  (sch.filter (fun e =>
    decide (e.type = PropType.number ∨ e.type = PropType.formula))).map SchemaEntry.name

/-- Embeds `props.get(key, {}).get("date", {}).get("start")`: `none` when the
key is absent or the record's property is not date-shaped. -/
def getDateStart (rec : RawRecord) (key : String) : Option String :=
  match rec.props.lookup key with
  | some (PropValue.date s) => s
  | _ => none

/-- Embeds the numeric read of the extractor: a property whose own type is
`formula` yields `formula.number`, otherwise the `number` payload is read
(absent or non-numeric properties give `none`). -/
def getNumber (rec : RawRecord) (key : String) : Option ℚ :=
  match rec.props.lookup key with
  | some (PropValue.formula v) => v
  | some (PropValue.number v) => v
  | _ => none

/-- Whether a record's date property carries a truthy value: Python's
`if date_val:` is false for a missing value and for the empty string. -/
def dateTruthy (rec : RawRecord) (key : String) : Bool :=
  match getDateStart rec key with
  | some s => decide (s ≠ "")
  | none => false

/-- A flat extracted row: the parsed date columns (keyed by property name),
the derived calendar fields, and the numeric columns (keyed by name). -/
structure Row where
  dates : List (String × SimpleDate)
  year : Option Int
  month : Option String
  day : Option String
  nums : List (String × ℚ)
deriving DecidableEq, Repr

/-- Embeds the date loop of `results_to_dataframe`: for each date key with a
truthy value, parse it (an unparseable value raises, here `Except.error`),
store the parsed date under its key and overwrite the derived `Year`,
`Month` and `Day` fields. -/
def extractDates (rec : RawRecord) :
    List String → List (String × SimpleDate) → Option Int → Option String →
    Option String →
    Except String (List (String × SimpleDate) × Option Int × Option String × Option String)
  | [], ds, y, mo, dy => Except.ok (ds, y, mo, dy)
  | k :: ks, ds, y, mo, dy =>
    match getDateStart rec k with
    | none => extractDates rec ks ds y mo dy
    | some s =>
      if s = "" then extractDates rec ks ds y mo dy
      else
        match parseDate s with
        | none => Except.error s
        | some d =>
          extractDates rec ks (ds ++ [(k, d)]) (some d.year)
            (some (monthName d.month)) (some (weekdayName d))

/-- Embeds the number loop of `results_to_dataframe`: collect, in key order,
each numeric key whose value is not `None`. -/
def extractNums (rec : RawRecord) : List String → List (String × ℚ)
  | [] => []
  | k :: ks =>
    match getNumber rec k with
    | some v => (k, v) :: extractNums rec ks
    | none => extractNums rec ks

/-- Extraction of one raw record into zero or one `Row` (`if row:` keeps the
row only when at least one field was stored). -/
def extractRow (sch : Schema) (rec : RawRecord) : Except String (Option Row) :=
  match extractDates rec (dateKeys sch) [] none none none with
  | Except.error e => Except.error e
  | Except.ok (ds, y, mo, dy) =>
    let ns := extractNums rec (numberKeys sch)
    if ds.isEmpty ∧ ns.isEmpty then Except.ok none
    else Except.ok (some ⟨ds, y, mo, dy, ns⟩)

/-- Embeds the record loop of `Notion.results_to_dataframe` over a fetched
result list: rows of successive records are appended in order; an extraction
error (unparseable date) propagates and aborts the whole conversion. -/
def resultsToDataframe (sch : Schema) : List RawRecord → Except String (List Row)
  | [] => Except.ok []
  | rec :: rest =>
    match extractRow sch rec with
    | Except.error e => Except.error e
    | Except.ok none => resultsToDataframe sch rest
    | Except.ok (some row) =>
      match resultsToDataframe sch rest with
      | Except.error e => Except.error e
      | Except.ok rows => Except.ok (row :: rows)

/-- The truthy date values of a record along a key list, in iteration order;
its last element is the value whose parse seeds the final calendar fields. -/
def truthyDateVals (rec : RawRecord) (ks : List String) : List String :=
  ks.filterMap (fun k =>
    match getDateStart rec k with
    | some s => if s = "" then none else some s
    | none => none)

/-- A record yields no field at all: every date key is non-truthy and every
numeric key is `None`. -/
def fieldless (sch : Schema) (rec : RawRecord) : Prop :=
  (∀ k ∈ dateKeys sch, dateTruthy rec k = false) ∧
  (∀ k ∈ numberKeys sch, getNumber rec k = none)

/-- A record lacking any non-null (truthy) temporal field. -/
def noTemporal (sch : Schema) (rec : RawRecord) : Prop :=
  ∀ k ∈ dateKeys sch, dateTruthy rec k = false

instance (sch : Schema) (rec : RawRecord) : Decidable (fieldless sch rec) := by
  unfold fieldless; infer_instance

instance (sch : Schema) (rec : RawRecord) : Decidable (noTemporal sch rec) := by
  unfold noTemporal; infer_instance

/-! ### Monthly aggregator (`Notion.aggregate_monthly_performance`)

The daily dataframe is the list of extracted `Row`s.  Grouping keys are the
(Year, Month) pairs of rows that carry both fields (pandas drops null group
keys); the group mean skips rows whose value for the aggregation attribute
is missing (pandas `mean` skips NaN, and a group with no carrier at all gets
NaN, modelled `none`).  The month ordinal helper column, the descending
sort, and the final 2-decimal rounding mirror steps 2–4 of the Python
function. -/

/-- Round a rational to the nearest integer, ties to even (the rounding of
`pandas.DataFrame.round`). -/
def roundHalfEven (x : ℚ) : ℤ :=
  let f := ⌊x⌋
  let r := x - f
  if r < 1 / 2 then f
  else if 1 / 2 < r then f + 1
  else if f % 2 = 0 then f else f + 1

/-- Round to 2 decimal places, ties to even (`.round(2)`). -/
def round2 (x : ℚ) : ℚ := (roundHalfEven (100 * x) : ℚ) / 100

/-- One output row of the monthly aggregation: the group key and the averaged
value (`none` models pandas NaN for a group with no carrier rows). -/
structure AggRow where
  year : Int
  month : String
  avg : Option ℚ
deriving DecidableEq, Repr

/-- The grouping key of a daily row, when it carries both `Year` and `Month`
(rows with a null key are dropped by pandas `groupby`). -/
def rowKey (r : Row) : Option (Int × String) :=
  match r.year, r.month with
  | some y, some mo => some (y, mo)
  | _, _ => none

/-- First-occurrence deduplication with an accumulator of already-seen keys. -/
def dedupFirstAux (seen : List (Int × String)) :
    List (Int × String) → List (Int × String)
  | [] => []
  | k :: ks =>
    if k ∈ seen then dedupFirstAux seen ks
    else k :: dedupFirstAux (k :: seen) ks

/-- The distinct (Year, Month) group keys of a row set. -/
def keysOf (rows : List Row) : List (Int × String) :=
  dedupFirstAux [] (rows.filterMap rowKey)

/-- The values of the aggregation attribute over the rows of one group: only
rows that carry the attribute contribute (pandas mean skips NaN). -/
def groupVals (attr : String) (rows : List Row) (y : Int) (mo : String) : List ℚ :=
  rows.filterMap (fun r =>
    if rowKey r = some (y, mo) then r.nums.lookup attr else none)

/-- Arithmetic mean of a value list; an empty group yields `none` (NaN). -/
def meanOpt (vs : List ℚ) : Option ℚ :=
  if vs = [] then none else some (vs.sum / (vs.length : ℚ))

/-- Step 1 of the aggregation: one `AggRow` per distinct group key, holding
the group's un-rounded mean. -/
def aggBase (attr : String) (rows : List Row) : List AggRow :=
  (keysOf rows).map (fun k => ⟨k.1, k.2, meanOpt (groupVals attr rows k.1 k.2)⟩)

/-- Step 2: attach the numeric month ordinal
(`list(calendar.month_name).index(m)`, which raises — here `none` — on a
string that is not a month name). -/
def withMonthNum : List AggRow → Option (List (AggRow × Nat))
  | [] => some []
  | a :: as =>
    match monthIndex a.month with
    | none => none
    | some n => (withMonthNum as).map (fun l => (a, n) :: l)

/-- Sort order of step 3: Year descending, then month ordinal descending. -/
def aggLE (a b : AggRow × Nat) : Prop :=
  b.1.year < a.1.year ∨ (a.1.year = b.1.year ∧ b.2 ≤ a.2)

instance : DecidableRel aggLE := fun a b => by unfold aggLE; infer_instance

instance : IsTotal (AggRow × Nat) aggLE :=
  ⟨by intro a b; unfold aggLE; omega⟩

instance : IsTrans (AggRow × Nat) aggLE :=
  ⟨by intro a b c hab hbc; unfold aggLE at hab hbc ⊢; omega⟩

/-- Step 4: round the averaged value of an output row to 2 decimals. -/
def roundRow (a : AggRow) : AggRow := { a with avg := a.avg.map round2 }

/-- `Notion.aggregate_monthly_performance`: group, average, sort by Year then
month ordinal (both descending), drop the helper ordinal, round to 2
decimals.  `none` models the `ValueError` raised when a month name cannot be
mapped back to its ordinal. -/
def aggregate (attr : String) (rows : List Row) : Option (List AggRow) :=
  match withMonthNum (aggBase attr rows) with
  | none => none
  | some wn =>
    some (((List.insertionSort aggLE wn).map Prod.fst).map roundRow)

/-- Retrieval of the output value of a group key: the averaged value of the
first (unique) output row carrying that key. -/
def findAvg (out : List AggRow) (y : Int) (mo : String) : Option (Option ℚ) :=
  (out.find? (fun a => decide (a.year = y ∧ a.month = mo))).map AggRow.avg

/-- The month ordinal of an output row (total version, for stating order). -/
def mIdxD (a : AggRow) : Nat := (monthIndex a.month).getD 0

/-! ### Summary store reconciler (`Notion.upsert_monthly_summary`)

The target collection's state is the list of its pages, each carrying its
identifier, the plain-text fragments of its title property, the numeric
`Average <attribute>` property, and the `Date` property.  Freshly created
pages receive consecutive identifiers starting at a counter that sits above
every existing identifier (remote identifiers are unique).  The upsert
builds its label lookup once (step 2 of the Python function, a dict whose
later entries overwrite earlier ones), then walks the aggregate rows
(step 3), updating the looked-up page or appending a new one. -/

/-- A page of the target summary collection. -/
structure Page where
  id : Nat
  title : List String
  avg : Option ℚ
  date : Option String
deriving DecidableEq, Repr

/-- The lookup contribution of one page: pages with a non-empty title are
keyed by the plain text of their first title fragment only
(`title_prop[0]["plain_text"]`). -/
def headMatch (lab : String) (p : Page) : Option Nat :=
  match p.title.head? with
  | some t => if t = lab then some p.id else none
  | none => none

/-- The existing-record lookup of step 2: iterating pages in order into a
dict means the last page carrying a given first-fragment text wins. -/
def lookupLabel : List Page → String → Option Nat
  | [], _ => none
  | p :: ps, lab => (lookupLabel ps lab).or (headMatch lab p)

/-- The natural label of an aggregate row: `f"{row['Month']} {int(row['Year'])}"`. -/
def rowLabel (r : AggRow) : String := r.month ++ " " ++ toString r.year

/-- Two-digit zero padding, as `{month_number:02d}` formats. -/
def pad2 (n : Nat) : String := if n < 10 then "0" ++ toString n else toString n

/-- The synthetic first-of-month date `f"{row['Year']}-{month_number:02d}-01"`. -/
def dateStr (y : Int) (m : Nat) : String := toString y ++ "-" ++ pad2 m ++ "-01"

/-- `pages.update`: overwrite the numeric and date properties of the page
with the given identifier; every other page (and the title) is untouched. -/
def updatePage (pid : Nat) (v : Option ℚ) (d : String) (p : Page) : Page :=
  if p.id = pid then { p with avg := v, date := some d } else p

/-- The row loop of step 3, over a lookup map `m` fixed at the start of the
run: per row, resolve the month ordinal (`datetime.strptime(...)`, raising —
`none` — on a bad month name), then update the looked-up page or create a
new one.  Returns the final page list, the next fresh identifier, and the
number of created pages. -/
def runRows (m : String → Option Nat) :
    List AggRow → List Page → Nat → Nat → Option (List Page × Nat × Nat)
  | [], st, ctr, cr => some (st, ctr, cr)
  | r :: rs, st, ctr, cr =>
    match monthIndex r.month with
    | none => none
    | some k =>
      match m (rowLabel r) with
      | some pid =>
        runRows m rs (st.map (updatePage pid r.avg (dateStr r.year k))) ctr cr
      | none =>
        runRows m rs
          (st ++ [⟨ctr, [rowLabel r], r.avg, some (dateStr r.year k)⟩])
          (ctr + 1) (cr + 1)

/-- `Notion.upsert_monthly_summary` on a target collection state `st` with
fresh-identifier counter `ctr`: build the lookup from the existing pages
once, then fold the aggregate rows. -/
def runUpsert (st : List Page) (ctr : Nat) (rows : List AggRow) :
    Option (List Page × Nat × Nat) :=
  runRows (lookupLabel st) rows st ctr 0

/-- The update-only part of a run: the effect of the row loop on the pages
that already existed when the run started. -/
def updOf (m : String → Option Nat) : List AggRow → List Page → List Page
  | [], st => st
  | r :: rs, st =>
    match monthIndex r.month, m (rowLabel r) with
    | some k, some pid => updOf m rs (st.map (updatePage pid r.avg (dateStr r.year k)))
    | _, _ => updOf m rs st

/-- The pages a run creates, with their consecutive identifiers. -/
def createdOf (m : String → Option Nat) (ctr : Nat) : List AggRow → List Page
  | [] => []
  | r :: rs =>
    match monthIndex r.month, m (rowLabel r) with
    | some k, none =>
      ⟨ctr, [rowLabel r], r.avg, some (dateStr r.year k)⟩ :: createdOf m (ctr + 1) rs
    | _, _ => createdOf m ctr rs

/-- One page update: target identifier, new numeric value, new date. -/
abbrev UpdOp := Nat × Option ℚ × String

/-- The sequence of page updates a run performs. -/
def opsOf (m : String → Option Nat) : List AggRow → List UpdOp
  | [] => []
  | r :: rs =>
    match monthIndex r.month, m (rowLabel r) with
    | some k, some pid => (pid, r.avg, dateStr r.year k) :: opsOf m rs
    | _, _ => opsOf m rs

/-- Apply one update to one page. -/
def applyOp (p : Page) (o : UpdOp) : Page := updatePage o.1 o.2.1 o.2.2 p

/-- Apply a sequence of updates to one page. -/
def applyOps (ops : List UpdOp) (p : Page) : Page := ops.foldl applyOp p

/-- The last aggregate row carrying a given label. -/
def lastRowWith (lab : String) (rows : List AggRow) : Option AggRow :=
  (rows.filter (fun r => decide (rowLabel r = lab))).getLast?

/-! ### Concrete example fixtures used by witnesses and counterexamples -/

/-- The aggregate row of the upsert example: (2025, June) averaging 42. -/
def juneRow : AggRow := ⟨2025, "June", some 42⟩

/-- An existing summary page labelled "June 2025" with stale values. -/
def juneOldPage : Page := ⟨3, ["June 2025"], some 10, some "2024-01-01"⟩

/-- A page whose title is split into two rich-text fragments whose
concatenation — but not whose first fragment — equals "June 2025". -/
def fragPage : Page := ⟨5, ["June ", "2025"], none, none⟩

/-- A target collection holding one stale "May 2025" record. -/
def idemSt : List Page := [⟨3, ["May 2025"], some 1, none⟩]

/-- Aggregate input updating May and creating June. -/
def idemRows : List AggRow := [⟨2025, "May", some 7⟩, ⟨2025, "June", some 42⟩]

/-- The collection state after one run over `idemSt`. -/
def idemSt1 : List Page :=
  [⟨3, ["May 2025"], some 7, some "2025-05-01"⟩,
   ⟨4, ["June 2025"], some 42, some "2025-06-01"⟩]

/-- A two-property schema: a date property and a plain number property. -/
def exSchema : Schema := [⟨"Date", PropType.date⟩, ⟨"rnd", PropType.number⟩]

/-- A record whose date string cannot be parsed. -/
def badRec : RawRecord :=
  ⟨[("Date", PropValue.date (some "garbage")), ("rnd", PropValue.number (some 1))]⟩

/-- A well-formed record. -/
def goodRec : RawRecord :=
  ⟨[("Date", PropValue.date (some "2025-01-15")), ("rnd", PropValue.number (some 2))]⟩

/-- The row extracted from `goodRec`. -/
def goodRow : Row :=
  ⟨[("Date", ⟨2025, 1, 15⟩)], some 2025, some "January", some "Wednesday", [("rnd", 2)]⟩

/-- A record with no extractable field: a null date and a null number. -/
def emptyRec : RawRecord :=
  ⟨[("Date", PropValue.date none), ("rnd", PropValue.number none)]⟩

/-- A record carrying only a numeric field (no temporal anchor). -/
def numOnlyRec : RawRecord := ⟨[("rnd", PropValue.number (some 3))]⟩

/-- The row extracted from `numOnlyRec`: no calendar fields. -/
def numOnlyRow : Row := ⟨[], none, none, none, [("rnd", 3)]⟩

/-- The daily rows of the spec's aggregation example:
(2025, January, 10), (2025, January, 20), (2025, February, 5). -/
def aggRows1 : List Row :=
  [⟨[], some 2025, some "January", none, [("rnd", 10)]⟩,
   ⟨[], some 2025, some "January", none, [("rnd", 20)]⟩,
   ⟨[], some 2025, some "February", none, [("rnd", 5)]⟩]

/-- The aggregated output of `aggRows1`: January averages 15, February 5. -/
def aggOut1 : List AggRow :=
  [⟨2025, "February", some 5⟩, ⟨2025, "January", some 15⟩]

/-- Daily rows giving groups (2024, March), (2025, January), (2024, December)
for the ordering example. -/
def aggRows2 : List Row :=
  [⟨[], some 2024, some "March", none, [("rnd", 1)]⟩,
   ⟨[], some 2025, some "January", none, [("rnd", 2)]⟩,
   ⟨[], some 2024, some "December", none, [("rnd", 3)]⟩]

/-- The aggregated output of `aggRows2`, most recent month first. -/
def aggOut2 : List AggRow :=
  [⟨2025, "January", some 2⟩, ⟨2024, "December", some 3⟩, ⟨2024, "March", some 1⟩]

/-- A schema with two date properties, to exercise the last-date-wins
tie-break. -/
def twoDateSchema : Schema :=
  [⟨"Start", PropType.date⟩, ⟨"End", PropType.date⟩, ⟨"rnd", PropType.number⟩]

/-- A record with two non-null date properties in different months. -/
def twoDateRec : RawRecord :=
  ⟨[("Start", PropValue.date (some "2025-01-15")),
    ("End", PropValue.date (some "2025-02-20")),
    ("rnd", PropValue.number (some 7))]⟩

/-- The row extracted from `twoDateRec`: calendar fields from the later
`End` date. -/
def twoDateRow : Row :=
  ⟨[("Start", ⟨2025, 1, 15⟩), ("End", ⟨2025, 2, 20⟩)],
    some 2025, some "February", some "Thursday", [("rnd", 7)]⟩

theorem fetchFrom_eq_drop_flatten (s : PagedSource α) :
    ∀ n i, s.pages.length - i ≤ n → fetchFrom s i = (s.pages.drop i).flatten := by
  intro n
  induction n with
  | zero =>
    intro i hi
    have hge : s.pages.length ≤ i := by omega
    rw [fetchFrom, if_neg (by omega)]
    have h1 : s.pages.drop i = [] := List.drop_eq_nil_of_le hge
    have h2 : s.pages.getD i [] = [] := by
      simp [List.getD_eq_getElem?_getD, List.getElem?_eq_none hge]
    rw [h1, h2, List.flatten_nil]
  | succ n ih =>
    intro i hi
    rw [fetchFrom]
    by_cases h : i + 1 < s.pages.length
    · have hlt : i < s.pages.length := Nat.lt_of_succ_lt h
      have hdrop : s.pages.drop i = s.pages.get ⟨i, hlt⟩ :: s.pages.drop (i + 1) :=
        List.drop_eq_get_cons hlt
      rw [if_pos h, hdrop, List.flatten_cons]
      have hget : s.pages.getD i [] = s.pages.get ⟨i, hlt⟩ := by
        simp [List.getD_eq_getElem?_getD, List.getElem?_eq_getElem hlt]
      rw [hget]
      congr 1
      exact ih (i + 1) (by omega)
    · rw [if_neg h]
      by_cases hlt : i < s.pages.length
      · have hdrop : s.pages.drop i = s.pages.get ⟨i, hlt⟩ :: s.pages.drop (i + 1) :=
          List.drop_eq_get_cons hlt
        have hnil : s.pages.drop (i + 1) = [] := List.drop_eq_nil_of_le (by omega)
        rw [hdrop, hnil, List.flatten_cons, List.flatten_nil, List.append_nil]
        simp [List.getD_eq_getElem?_getD, List.getElem?_eq_getElem hlt]
      · have hge : s.pages.length ≤ i := by omega
        have h1 : s.pages.drop i = [] := List.drop_eq_nil_of_le hge
        have h2 : s.pages.getD i [] = [] := by
          simp [List.getD_eq_getElem?_getD, List.getElem?_eq_none hge]
        rw [h1, h2, List.flatten_nil]

/-- C5: for every paginated source, the record fetcher returns the
concatenation of all pages in order — it keeps following the remote's
continuation token until `has_more` is false, so the result is the complete,
order-preserving sequence of all records regardless of page boundaries. -/
theorem fetchAllRecords_complete (s : PagedSource α) :
    fetchAllRecords s = s.pages.flatten := by
  rw [fetchAllRecords, fetchFrom_eq_drop_flatten s s.pages.length 0 (by omega),
    List.drop_zero]

/-! ### Lemmas about the row extractor -/

theorem extractDates_skip (rec : RawRecord) :
    ∀ ks ds y mo dy, (∀ k ∈ ks, dateTruthy rec k = false) →
      extractDates rec ks ds y mo dy = Except.ok (ds, y, mo, dy) := by
  intro ks
  induction ks with
  | nil => intro ds y mo dy _; rfl
  | cons k ks ih =>
    intro ds y mo dy h
    have hk := h k (List.mem_cons_self k ks)
    have hks : ∀ k ∈ ks, dateTruthy rec k = false :=
      fun k hm => h k (List.mem_cons_of_mem _ hm)
    rw [extractDates]
    cases hds : getDateStart rec k with
    | none =>
      simp only [hds]
      exact ih ds y mo dy hks
    | some s =>
      have hse : s = "" := by
        by_contra hne
        simp [dateTruthy, hds, hne] at hk
      simp only [hds, if_pos hse]
      exact ih ds y mo dy hks

theorem extractNums_nil (rec : RawRecord) :
    ∀ ks, (∀ k ∈ ks, getNumber rec k = none) → extractNums rec ks = [] := by
  intro ks
  induction ks with
  | nil => intro _; rfl
  | cons k ks ih =>
    intro h
    rw [extractNums, h k (List.mem_cons_self k ks)]
    exact ih fun k hm => h k (List.mem_cons_of_mem _ hm)

theorem truthyDateVals_nil_of_skip (rec : RawRecord) (ks : List String)
    (h : ∀ k ∈ ks, dateTruthy rec k = false) : truthyDateVals rec ks = [] := by
  rw [truthyDateVals, List.filterMap_eq_nil]
  intro k hk
  have ht := h k hk
  cases hds : getDateStart rec k with
  | none => simp [hds]
  | some s =>
    have hse : s = "" := by
      by_contra hne
      simp [dateTruthy, hds, hne] at ht
    simp [hds, hse]

theorem extractDates_calendar (rec : RawRecord) :
    ∀ ks ds y mo dy out, extractDates rec ks ds y mo dy = Except.ok out →
      (truthyDateVals rec ks = [] ∧ out.2.1 = y ∧ out.2.2.1 = mo ∧ out.2.2.2 = dy) ∨
      (∃ s d, (truthyDateVals rec ks).getLast? = some s ∧ parseDate s = some d ∧
        out.2.1 = some d.year ∧ out.2.2.1 = some (monthName d.month) ∧
        out.2.2.2 = some (weekdayName d)) := by
  intro ks
  induction ks with
  | nil =>
    intro ds y mo dy out h
    rw [extractDates] at h
    cases h
    exact Or.inl ⟨rfl, rfl, rfl, rfl⟩
  | cons k ks ih =>
    intro ds y mo dy out h
    rw [extractDates] at h
    cases hds : getDateStart rec k with
    | none =>
      simp only [hds] at h
      have hvals : truthyDateVals rec (k :: ks) = truthyDateVals rec ks := by
        simp [truthyDateVals, List.filterMap_cons, hds]
      rw [hvals]
      exact ih ds y mo dy out h
    | some s =>
      simp only [hds] at h
      by_cases hse : s = ""
      · rw [if_pos hse] at h
        have hvals : truthyDateVals rec (k :: ks) = truthyDateVals rec ks := by
          simp [truthyDateVals, List.filterMap_cons, hds, hse]
        rw [hvals]
        exact ih ds y mo dy out h
      · rw [if_neg hse] at h
        have hvals : truthyDateVals rec (k :: ks) = s :: truthyDateVals rec ks := by
          simp [truthyDateVals, List.filterMap_cons, hds, hse]
        rw [hvals]
        cases hp : parseDate s with
        | none =>
          simp only [hp] at h
          exact absurd h (by simp)
        | some d =>
          simp only [hp] at h
          rcases ih _ _ _ _ _ h with ⟨hnil, hy, hmo, hdy⟩ | ⟨s', d', hlast, hp', hy, hmo, hdy⟩
          · rw [hnil]
            exact Or.inr ⟨s, d, by simp, hp, hy, hmo, hdy⟩
          · refine Or.inr ⟨s', d', ?_, hp', hy, hmo, hdy⟩
            have hne : truthyDateVals rec ks ≠ [] := by
              intro hcon
              rw [hcon] at hlast
              simp at hlast
            cases hl : truthyDateVals rec ks with
            | nil => exact absurd hl hne
            | cons a t =>
              rw [hl] at hlast
              rw [List.getLast?_cons_cons]
              exact hlast

theorem extractDates_error_of_bad (rec : RawRecord) :
    ∀ ks ds y mo dy k s, k ∈ ks → getDateStart rec k = some s → s ≠ "" →
      parseDate s = none → ∃ e, extractDates rec ks ds y mo dy = Except.error e := by
  intro ks
  induction ks with
  | nil => intro ds y mo dy k s hk; cases hk
  | cons k' ks ih =>
    intro ds y mo dy k s hk hds hne hbad
    rw [extractDates]
    rcases List.mem_cons.mp hk with heq | hmem
    · subst heq
      simp only [hds, if_neg hne, hbad]
      exact ⟨s, rfl⟩
    · cases hds' : getDateStart rec k' with
      | none =>
        simp only [hds']
        exact ih ds y mo dy k s hmem hds hne hbad
      | some s' =>
        by_cases hse : s' = ""
        · simp only [hds', if_pos hse]
          exact ih ds y mo dy k s hmem hds hne hbad
        · simp only [hds', if_neg hse]
          cases hp : parseDate s' with
          | none => simp only [hp]; exact ⟨s', rfl⟩
          | some d =>
            simp only [hp]
            exact ih _ _ _ _ k s hmem hds hne hbad

theorem resultsToDataframe_append (sch : Schema) :
    ∀ pre post, resultsToDataframe sch (pre ++ post) =
      match resultsToDataframe sch pre with
      | Except.error e => Except.error e
      | Except.ok rs =>
        match resultsToDataframe sch post with
        | Except.error e => Except.error e
        | Except.ok rs' => Except.ok (rs ++ rs') := by
  intro pre post
  induction pre with
  | nil =>
    have h0 : resultsToDataframe sch ([] : List RawRecord) = Except.ok [] := rfl
    rw [List.nil_append]
    simp only [h0]
    cases hp : resultsToDataframe sch post with
    | error e => simp only [hp]
    | ok rs' => simp only [hp, List.nil_append]
  | cons rec pre ih =>
    rw [List.cons_append, resultsToDataframe, resultsToDataframe, ih]
    cases hx : extractRow sch rec with
    | error e => simp only [hx]
    | ok o =>
      cases o with
      | none => simp only [hx]
      | some row =>
        simp only [hx]
        cases hp : resultsToDataframe sch pre with
        | error e => simp only [hp]
        | ok rs =>
          simp only [hp]
          cases hq : resultsToDataframe sch post with
          | error e => simp only [hq]
          | ok rs' => simp only [hq, List.cons_append]

/-! ### Claim theorems about the row extractor -/

/-- C8: a `Row` is materialized only if at least one field (temporal or
numeric) was extracted; a record yielding no field at all is dropped
silently, contributing no row to the output; and a row whose record lacks a
non-null temporal field carries no `Year`/`Month`. -/
theorem row_materialization (sch : Schema) (rec : RawRecord) :
    (∀ row, extractRow sch rec = Except.ok (some row) →
      ¬(row.dates = [] ∧ row.nums = [])) ∧
    (fieldless sch rec →
      ∀ rest, resultsToDataframe sch (rec :: rest) = resultsToDataframe sch rest) ∧
    (∀ row, noTemporal sch rec → extractRow sch rec = Except.ok (some row) →
      row.year = none ∧ row.month = none) := by
  refine ⟨?_, ?_, ?_⟩
  · intro row h
    rw [extractRow] at h
    match hd : extractDates rec (dateKeys sch) [] none none none with
    | Except.error e => rw [hd] at h; cases h
    | Except.ok (ds, y, mo, dy) =>
      rw [hd] at h
      simp only at h
      by_cases hemp : ds.isEmpty ∧ (extractNums rec (numberKeys sch)).isEmpty
      · rw [if_pos hemp] at h; cases h
      · rw [if_neg hemp] at h
        cases h
        intro ⟨h1, h2⟩
        exact hemp ⟨by rw [show ds = [] from h1]; rfl,
          by rw [show extractNums rec (numberKeys sch) = [] from h2]; rfl⟩
  · intro hf rest
    have hd := extractDates_skip rec (dateKeys sch) [] none none none hf.1
    have hn := extractNums_nil rec (numberKeys sch) hf.2
    rw [resultsToDataframe, extractRow, hd]
    simp only [hn]
    rw [if_pos (by simp)]
  · intro row hnt h
    rw [extractRow, extractDates_skip rec (dateKeys sch) [] none none none hnt] at h
    simp only at h
    split at h
    · cases h
    · cases h
      exact ⟨rfl, rfl⟩

/-- Witness for C8 at concrete inputs: a record with a null date and a null
number is dropped silently, and a record carrying only a number yields a row
with no `Year`/`Month`. -/
theorem row_materialization_witness :
    (fieldless exSchema emptyRec ∧
      resultsToDataframe exSchema [emptyRec, numOnlyRec] =
        resultsToDataframe exSchema [numOnlyRec]) ∧
    (noTemporal exSchema numOnlyRec ∧
      extractRow exSchema numOnlyRec = Except.ok (some numOnlyRow) ∧
      numOnlyRow.year = none ∧ numOnlyRow.month = none) :=
  ⟨⟨by decide, (row_materialization exSchema emptyRec).2.1 (by decide) [numOnlyRec]⟩,
   ⟨by decide, by decide,
    (row_materialization exSchema numOnlyRec).2.2 numOnlyRow (by decide) (by decide)⟩⟩

/-- C9: when a record carries several temporal fields with non-null values,
the extracted row's `Year`, `Month` and `Day` equal those derived from the
last temporal value processed in iteration order — later temporal fields
overwrite calendar fields derived from earlier ones, without error. -/
theorem last_date_wins (sch : Schema) (rec : RawRecord) (row : Row)
    (s : String) (d : SimpleDate)
    (hrow : extractRow sch rec = Except.ok (some row))
    (hlast : (truthyDateVals rec (dateKeys sch)).getLast? = some s)
    (hparse : parseDate s = some d) :
    row.year = some d.year ∧ row.month = some (monthName d.month) ∧
      row.day = some (weekdayName d) := by
  rw [extractRow] at hrow
  match hd : extractDates rec (dateKeys sch) [] none none none with
  | Except.error e => rw [hd] at hrow; cases hrow
  | Except.ok (ds, y, mo, dy) =>
    rw [hd] at hrow
    simp only at hrow
    have hcal := extractDates_calendar rec (dateKeys sch) [] none none none
      (ds, y, mo, dy) hd
    have hrow' : row = ⟨ds, y, mo, dy, extractNums rec (numberKeys sch)⟩ := by
      split at hrow
      · cases hrow
      · cases hrow; rfl
    rcases hcal with ⟨hnil, _, _, _⟩ | ⟨s', d', hl, hp, hy, hmo, hdy⟩
    · rw [hnil] at hlast; simp at hlast
    · rw [hl] at hlast
      cases hlast
      rw [hparse] at hp
      cases hp
      rw [hrow']
      exact ⟨hy, hmo, hdy⟩

/-- Witness for C9: a record with date properties in January and February
(in that iteration order) yields a row whose calendar fields come from the
later February date. -/
theorem last_date_wins_witness :
    extractRow twoDateSchema twoDateRec = Except.ok (some twoDateRow) ∧
    (truthyDateVals twoDateRec (dateKeys twoDateSchema)).getLast? =
      some "2025-02-20" ∧
    parseDate "2025-02-20" = some ⟨2025, 2, 20⟩ ∧
    (twoDateRow.year = some (2025 : Int) ∧
      twoDateRow.month = some (monthName 2) ∧
      twoDateRow.day = some (weekdayName ⟨2025, 2, 20⟩)) :=
  ⟨by decide, by decide, by decide,
    last_date_wins twoDateSchema twoDateRec twoDateRow "2025-02-20" ⟨2025, 2, 20⟩
      (by decide) (by decide) (by decide)⟩

/-- C4 counterexample: with a record whose date string cannot be parsed
followed by a well-formed record, the extraction does raise a parse failure,
but contrary to the claim the overall run aborts: the conversion returns an
error and the remaining record is not extracted (it would extract fine on
its own). -/
theorem parse_abort_cex :
    resultsToDataframe exSchema [badRec, goodRec] ≠ Except.ok [goodRow] ∧
    resultsToDataframe exSchema [badRec, goodRec] = Except.error "garbage" ∧
    resultsToDataframe exSchema [goodRec] = Except.ok [goodRow] := by
  refine ⟨by decide, by decide, by decide⟩

/-- C4 (amended): a record whose temporal value fails to parse raises a parse
failure (it never silently produces a row with null calendar fields), and the
failure is fatal to the whole conversion: the run aborts with the error and
the remaining records are not extracted. -/
theorem parse_failure_aborts_run (sch : Schema) (rec : RawRecord) (k s : String)
    (pre rest : List RawRecord) (prs : List Row)
    (hk : k ∈ dateKeys sch) (hs : getDateStart rec k = some s) (hne : s ≠ "")
    (hbad : parseDate s = none)
    (hpre : resultsToDataframe sch pre = Except.ok prs) :
    (∃ e, extractRow sch rec = Except.error e) ∧
    (∃ e, resultsToDataframe sch (pre ++ rec :: rest) = Except.error e) := by
  obtain ⟨e, he⟩ := extractDates_error_of_bad rec (dateKeys sch) [] none none none
    k s hk hs hne hbad
  have hrec : extractRow sch rec = Except.error e := by
    rw [extractRow, he]
  refine ⟨⟨e, hrec⟩, ⟨e, ?_⟩⟩
  rw [resultsToDataframe_append, hpre]
  simp only
  rw [resultsToDataframe, hrec]

/-- Witness for the amended C4: the malformed record aborts the run even
though the preceding record extracted fine. -/
theorem parse_failure_aborts_run_witness :
    "Date" ∈ dateKeys exSchema ∧ getDateStart badRec "Date" = some "garbage" ∧
    parseDate "garbage" = none ∧
    resultsToDataframe exSchema [goodRec] = Except.ok [goodRow] ∧
    ((∃ e, extractRow exSchema badRec = Except.error e) ∧
      (∃ e, resultsToDataframe exSchema ([goodRec] ++ badRec :: []) =
        Except.error e)) :=
  ⟨by decide, by decide, by decide, by decide,
    parse_failure_aborts_run exSchema badRec "Date" "garbage" [goodRec] [] [goodRow]
      (by decide) (by decide) (by decide) (by decide) (by decide)⟩

/-! ### Lemmas about the monthly aggregator -/

theorem mem_dedupFirstAux :
    ∀ (l seen : List (Int × String)) (x : Int × String),
      x ∈ dedupFirstAux seen l ↔ x ∈ l ∧ x ∉ seen := by
  intro l
  induction l with
  | nil => intro seen x; simp [dedupFirstAux]
  | cons k ks ih =>
    intro seen x
    rw [dedupFirstAux]
    by_cases hk : k ∈ seen
    · rw [if_pos hk, ih]
      constructor
      · rintro ⟨hx, hs⟩
        exact ⟨List.mem_cons_of_mem _ hx, hs⟩
      · rintro ⟨hx, hs⟩
        rcases List.mem_cons.mp hx with rfl | hx
        · exact absurd hk hs
        · exact ⟨hx, hs⟩
    · rw [if_neg hk]
      constructor
      · intro hx
        rcases List.mem_cons.mp hx with rfl | hx
        · exact ⟨List.mem_cons_self _ _, hk⟩
        · obtain ⟨h1, h2⟩ := (ih _ x).mp hx
          exact ⟨List.mem_cons_of_mem _ h1,
            fun hs => h2 (List.mem_cons_of_mem _ hs)⟩
      · rintro ⟨hx, hs⟩
        rcases List.mem_cons.mp hx with rfl | hx
        · exact List.mem_cons_self _ _
        · by_cases hxk : x = k
          · subst hxk; exact List.mem_cons_self _ _
          · refine List.mem_cons_of_mem _ ((ih _ x).mpr ⟨hx, fun hmem => ?_⟩)
            rcases List.mem_cons.mp hmem with h | h
            · exact hxk h
            · exact hs h

theorem nodup_dedupFirstAux :
    ∀ (l seen : List (Int × String)), (dedupFirstAux seen l).Nodup := by
  intro l
  induction l with
  | nil => intro seen; simp [dedupFirstAux]
  | cons k ks ih =>
    intro seen
    rw [dedupFirstAux]
    by_cases hk : k ∈ seen
    · rw [if_pos hk]; exact ih seen
    · rw [if_neg hk]
      refine List.nodup_cons.mpr ⟨fun hmem => ?_, ih _⟩
      exact ((mem_dedupFirstAux ks (k :: seen) k).mp hmem).2 (List.mem_cons_self _ _)

theorem withMonthNum_spec :
    ∀ (l : List AggRow) (wn : List (AggRow × Nat)), withMonthNum l = some wn →
      wn.map Prod.fst = l ∧ ∀ p ∈ wn, monthIndex p.1.month = some p.2 := by
  intro l
  induction l with
  | nil =>
    intro wn h
    rw [withMonthNum] at h
    cases h
    exact ⟨rfl, by simp⟩
  | cons a as ih =>
    intro wn h
    rw [withMonthNum] at h
    cases hm : monthIndex a.month with
    | none =>
      simp only [hm] at h
      exact Option.noConfusion h
    | some n =>
      simp only [hm] at h
      cases hw : withMonthNum as with
      | none =>
        simp only [hw, Option.map_none'] at h
        exact Option.noConfusion h
      | some l' =>
        simp only [hw, Option.map_some'] at h
        cases h
        obtain ⟨hfst, hmem⟩ := ih l' hw
        refine ⟨by rw [List.map_cons, hfst], ?_⟩
        intro p hp
        rcases List.mem_cons.mp hp with rfl | hp
        · exact hm
        · exact hmem p hp

theorem monthIndex_inj {m1 m2 : String} {i : Nat}
    (h1 : monthIndex m1 = some i) (h2 : monthIndex m2 = some i) : m1 = m2 := by
  rw [monthIndex] at h1 h2
  revert h1 h2
  generalize calMonthList = l
  intro h1 h2
  induction l generalizing i with
  | nil => cases h1
  | cons s rest ih =>
    rw [indexIn] at h1 h2
    by_cases e1 : s = m1
    · rw [if_pos e1] at h1
      by_cases e2 : s = m2
      · rw [← e1, ← e2]
      · rw [if_neg e2] at h2
        cases h1
        rcases Option.map_eq_some'.mp h2 with ⟨j, _, hj⟩
        omega
    · rw [if_neg e1] at h1
      by_cases e2 : s = m2
      · rw [if_pos e2] at h2
        cases h2
        rcases Option.map_eq_some'.mp h1 with ⟨j, _, hj⟩
        omega
      · rw [if_neg e2] at h2
        rcases Option.map_eq_some'.mp h1 with ⟨j1, hj1, hi1⟩
        rcases Option.map_eq_some'.mp h2 with ⟨j2, hj2, hi2⟩
        have hj : j1 = j2 := by omega
        exact ih hj1 (hj ▸ hj2)

theorem find?_key_of_nodup :
    ∀ (l : List AggRow) (x : AggRow) (y : Int) (mo : String),
      (l.map (fun a => (a.year, a.month))).Nodup → x ∈ l →
      x.year = y → x.month = mo →
      l.find? (fun a => decide (a.year = y ∧ a.month = mo)) = some x := by
  intro l
  induction l with
  | nil => intro x y mo _ hx; cases hx
  | cons a l ih =>
    intro x y mo hnd hx hy hmo
    have hnd' : (a.year, a.month) ∉ l.map (fun a => (a.year, a.month)) ∧
        (l.map (fun a => (a.year, a.month))).Nodup := by
      rw [List.map_cons, List.nodup_cons] at hnd
      exact hnd
    by_cases ha : a.year = y ∧ a.month = mo
    · have hfind : List.find? (fun r => decide (r.year = y ∧ r.month = mo)) (a :: l) =
          some a :=
        List.find?_cons_of_pos _ (decide_eq_true ha)
      rw [hfind]
      rcases List.mem_cons.mp hx with rfl | hx'
      · rfl
      · exfalso
        refine hnd'.1 (List.mem_map.mpr ⟨x, hx', ?_⟩)
        rw [hy, hmo, ha.1, ha.2]
    · have hfind : List.find? (fun r => decide (r.year = y ∧ r.month = mo)) (a :: l) =
          List.find? (fun r => decide (r.year = y ∧ r.month = mo)) l :=
        List.find?_cons_of_neg _ (by simpa using ha)
      rw [hfind]
      have hx' : x ∈ l := by
        rcases List.mem_cons.mp hx with rfl | hx'
        · exact absurd ⟨hy, hmo⟩ ha
        · exact hx'
      exact ih x y mo hnd'.2 hx' hy hmo

theorem aggBase_keys (attr : String) (rows : List Row) :
    (aggBase attr rows).map (fun a => (a.year, a.month)) = keysOf rows := by
  rw [aggBase, List.map_map]
  exact List.map_id _

/-! ### Claim theorems about the monthly aggregator -/

/-- C1: the monthly aggregator groups rows by (Year, Month) and outputs, for
each group, the mean of the designated attribute computed only over the rows
that carry the attribute (rows missing it count in neither numerator nor
denominator), rounded to 2 decimal places; a (Year, Month) pair with no row
yields no output row. -/
theorem aggregate_group_mean (attr : String) (rows : List Row) (out : List AggRow)
    (y : Int) (mo : String) (h : aggregate attr rows = some out) :
    ((y, mo) ∈ rows.filterMap rowKey →
      findAvg out y mo = some ((meanOpt (groupVals attr rows y mo)).map round2)) ∧
    ((y, mo) ∉ rows.filterMap rowKey → findAvg out y mo = none) := by
  rw [aggregate] at h
  cases hw : withMonthNum (aggBase attr rows) with
  | none =>
    simp only [hw] at h
    exact Option.noConfusion h
  | some wn =>
    simp only [hw] at h
    cases h
    obtain ⟨hfst, _⟩ := withMonthNum_spec _ _ hw
    have hperm : List.Perm (List.insertionSort aggLE wn) wn := List.perm_insertionSort aggLE wn
    have houtperm :
        List.Perm (((List.insertionSort aggLE wn).map Prod.fst).map roundRow)
          ((aggBase attr rows).map roundRow) := by
      refine List.Perm.map roundRow ?_
      rw [← hfst]
      exact hperm.map Prod.fst
    have haggkeys :
        ((aggBase attr rows).map roundRow).map (fun a => (a.year, a.month)) =
          keysOf rows := by
      rw [List.map_map]
      exact aggBase_keys attr rows
    have houtkeys :
        List.Perm ((((List.insertionSort aggLE wn).map Prod.fst).map roundRow).map
            (fun a => (a.year, a.month))) (keysOf rows) := by
      rw [← haggkeys]
      exact houtperm.map _
    have hnodup :
        ((((List.insertionSort aggLE wn).map Prod.fst).map roundRow).map
          (fun a => (a.year, a.month))).Nodup :=
      houtkeys.nodup_iff.mpr (nodup_dedupFirstAux _ _)
    constructor
    · intro hk
      have hkeys : (y, mo) ∈ keysOf rows :=
        (mem_dedupFirstAux _ _ _).mpr ⟨hk, by simp⟩
      have hbase : (⟨y, mo, meanOpt (groupVals attr rows y mo)⟩ : AggRow) ∈
          aggBase attr rows :=
        List.mem_map.mpr ⟨(y, mo), hkeys, rfl⟩
      have hout : roundRow ⟨y, mo, meanOpt (groupVals attr rows y mo)⟩ ∈
          ((List.insertionSort aggLE wn).map Prod.fst).map roundRow :=
        houtperm.mem_iff.mpr (List.mem_map.mpr ⟨_, hbase, rfl⟩)
      rw [findAvg, find?_key_of_nodup _ _ y mo hnodup hout rfl rfl]
      rfl
    · intro hk
      rw [findAvg, List.find?_eq_none.mpr ?_]
      · rfl
      · intro a ha hdec
        have hkey : (a.year, a.month) = (y, mo) := by
          have := of_decide_eq_true hdec
          rw [this.1, this.2]
        have : (y, mo) ∈ keysOf rows := by
          refine houtkeys.mem_iff.mp ?_
          rw [← hkey]
          exact List.mem_map.mpr ⟨a, ha, rfl⟩
        exact hk ((mem_dedupFirstAux _ _ _).mp this).1

unseal Rat.mul Rat.inv Rat.add Rat.sub in
/-- Witness for C1 at the spec's example: rows (2025, January, 10),
(2025, January, 20), (2025, February, 5) aggregate to January 15 and
February 5 exactly. -/
theorem aggregate_group_mean_witness :
    ((2025, "January") ∈ aggRows1.filterMap rowKey ∧
      (2025, "February") ∈ aggRows1.filterMap rowKey ∧
      aggregate "rnd" aggRows1 = some aggOut1) ∧
    findAvg aggOut1 2025 "January" = some (some 15) ∧
    findAvg aggOut1 2025 "February" = some (some 5) := by
  refine ⟨⟨by decide, by decide, by decide⟩, ?_, ?_⟩
  · rw [(aggregate_group_mean "rnd" aggRows1 aggOut1 2025 "January" (by decide)).1
      (by decide)]
    decide
  · rw [(aggregate_group_mean "rnd" aggRows1 aggOut1 2025 "February" (by decide)).1
      (by decide)]
    decide

/-- C2: the monthly aggregator's output is sorted by Year descending then by
calendar month ordinal descending (every output month is a valid month name,
and consecutive output rows strictly decrease in the (Year, ordinal) order);
the ordinal is a sort helper only — the output rows carry just the key and
the averaged value. -/
theorem aggregate_sorted_desc (attr : String) (rows : List Row) (out : List AggRow)
    (h : aggregate attr rows = some out) :
    (∀ a ∈ out, (monthIndex a.month).isSome) ∧
    out.Pairwise (fun a b =>
      b.year < a.year ∨ (a.year = b.year ∧ mIdxD b < mIdxD a)) := by
  rw [aggregate] at h
  cases hw : withMonthNum (aggBase attr rows) with
  | none =>
    simp only [hw] at h
    exact Option.noConfusion h
  | some wn =>
    simp only [hw] at h
    cases h
    obtain ⟨hfst, hmem⟩ := withMonthNum_spec _ _ hw
    have hperm : List.Perm (List.insertionSort aggLE wn) wn := List.perm_insertionSort aggLE wn
    have hmem' : ∀ p ∈ List.insertionSort aggLE wn, monthIndex p.1.month = some p.2 :=
      fun p hp => hmem p (hperm.mem_iff.mp hp)
    constructor
    · intro a ha
      rw [List.map_map] at ha
      rcases List.mem_map.mp ha with ⟨p, hp, rfl⟩
      have hmi := hmem' p hp
      have hmo : ((roundRow ∘ Prod.fst) p).month = p.1.month := rfl
      rw [hmo, hmi]
      rfl
    · rw [List.map_map, List.pairwise_map]
      have hsorted : (List.insertionSort aggLE wn).Pairwise aggLE :=
        List.sorted_insertionSort aggLE wn
      have hkeysnd :
          ((List.insertionSort aggLE wn).map
            (fun p : AggRow × Nat => (p.1.year, p.1.month))).Nodup := by
        have hagg :
            List.Perm ((List.insertionSort aggLE wn).map
              (fun p : AggRow × Nat => (p.1.year, p.1.month))) (keysOf rows) := by
          have h1 := hperm.map (fun p : AggRow × Nat => (p.1.year, p.1.month))
          have h2 : wn.map (fun p : AggRow × Nat => (p.1.year, p.1.month)) =
              keysOf rows := by
            have h3 : wn.map (fun p : AggRow × Nat => (p.1.year, p.1.month)) =
                (wn.map Prod.fst).map (fun a : AggRow => (a.year, a.month)) := by
              rw [List.map_map]
              rfl
            rw [h3, hfst, aggBase_keys]
          rw [h2] at h1
          exact h1
        exact hagg.nodup_iff.mpr (nodup_dedupFirstAux _ _)
      have hkeyne : (List.insertionSort aggLE wn).Pairwise
          (fun p q : AggRow × Nat => (p.1.year, p.1.month) ≠ (q.1.year, q.1.month)) :=
        List.pairwise_map.mp hkeysnd
      refine List.Pairwise.imp_of_mem ?_ (hsorted.and hkeyne)
      intro p q hp hq hpq
      obtain ⟨hle, hne⟩ := hpq
      have hp' := hmem' p hp
      have hq' := hmem' q hq
      rcases hle with hlt | ⟨heq, hle2⟩
      · exact Or.inl hlt
      · refine Or.inr ⟨heq, ?_⟩
        have hne2 : q.2 ≠ p.2 := by
          intro h2
          apply hne
          have hmo : p.1.month = q.1.month := monthIndex_inj hp' (h2 ▸ hq')
          rw [heq, hmo]
        have hmp : mIdxD ((roundRow ∘ Prod.fst) p) = p.2 := by
          show (monthIndex p.1.month).getD 0 = p.2
          rw [hp']
          rfl
        have hmq : mIdxD ((roundRow ∘ Prod.fst) q) = q.2 := by
          show (monthIndex q.1.month).getD 0 = q.2
          rw [hq']
          rfl
        rw [hmp, hmq]
        omega

unseal Rat.mul Rat.inv Rat.add Rat.sub in
/-- Witness for C2 at the spec's example: groups (2024, March),
(2025, January), (2024, December) come out in the order (2025, January),
(2024, December), (2024, March). -/
theorem aggregate_sorted_desc_witness :
    aggregate "rnd" aggRows2 = some aggOut2 ∧
    ((∀ a ∈ aggOut2, (monthIndex a.month).isSome) ∧
      aggOut2.Pairwise (fun a b =>
        b.year < a.year ∨ (a.year = b.year ∧ mIdxD b < mIdxD a))) :=
  ⟨by decide, aggregate_sorted_desc "rnd" aggRows2 aggOut2 (by decide)⟩

/-! ### Lemmas about the summary upsert -/

theorem lookupLabel_eq_none_of_heads (st : List Page) (lab : String)
    (h : ∀ p ∈ st, p.title.head? ≠ some lab) : lookupLabel st lab = none := by
  induction st with
  | nil => rfl
  | cons p ps ih =>
    rw [lookupLabel, ih (fun q hq => h q (List.mem_cons_of_mem _ hq))]
    have hh : headMatch lab p = none := by
      rw [headMatch]
      cases hp : p.title.head? with
      | none => rfl
      | some t =>
        have : t ≠ lab := fun he => h p (List.mem_cons_self _ _) (by rw [hp, he])
        simp [this]
    rw [hh]
    rfl

/-! ### Claim theorems about the summary upsert -/

/-- C6: an aggregate row whose label is absent from the existing-record
lookup creates exactly one new record, titled with the label, carrying the
row's average value and the first-of-month date `"<Year>-<MM>-01"`. -/
theorem upsert_creates_missing (st : List Page) (ctr : Nat) (r : AggRow) (k : Nat)
    (hk : monthIndex r.month = some k)
    (habs : lookupLabel st (rowLabel r) = none) :
    runUpsert st ctr [r] =
      some (st ++ [⟨ctr, [rowLabel r], r.avg, some (dateStr r.year k)⟩],
        ctr + 1, 1) := by
  rw [runUpsert, runRows]
  simp only [hk, habs]
  rw [runRows]

/-- Witness for C6 at the claim's example: (2025, June) averaging 42 against
an empty target creates one record titled "June 2025" with value 42 and date
"2025-06-01". -/
theorem upsert_creates_missing_witness :
    monthIndex "June" = some 6 ∧ lookupLabel [] (rowLabel juneRow) = none ∧
    runUpsert [] 0 [juneRow] =
      some ([(⟨0, ["June 2025"], some 42, some "2025-06-01"⟩ : Page)], 1, 1) := by
  refine ⟨by decide, by decide, ?_⟩
  rw [upsert_creates_missing [] 0 juneRow 6 (by decide) (by decide)]
  decide

/-- C7: an aggregate row whose label is present in the existing-record
lookup updates only the numeric and date properties of the matching record:
no record is created, every record keeps its identifier and title, and
records other than the matched one are untouched. -/
theorem upsert_updates_existing (st : List Page) (ctr : Nat) (r : AggRow)
    (k pid : Nat) (hk : monthIndex r.month = some k)
    (hpid : lookupLabel st (rowLabel r) = some pid) :
    runUpsert st ctr [r] =
      some (st.map (updatePage pid r.avg (dateStr r.year k)), ctr, 0) ∧
    (∀ p, (updatePage pid r.avg (dateStr r.year k) p).id = p.id ∧
      (updatePage pid r.avg (dateStr r.year k) p).title = p.title) ∧
    (∀ p, p.id ≠ pid → updatePage pid r.avg (dateStr r.year k) p = p) := by
  refine ⟨?_, ?_, ?_⟩
  · rw [runUpsert, runRows]
    simp only [hk, hpid]
    rw [runRows]
  · intro p
    rw [updatePage]
    by_cases h : p.id = pid
    · rw [if_pos h]
      exact ⟨rfl, rfl⟩
    · rw [if_neg h]
      exact ⟨rfl, rfl⟩
  · intro p hne
    rw [updatePage, if_neg hne]

/-- Witness for C7: the row (2025, June, 42) against a target already
holding a "June 2025" record overwrites that record's value and date in
place, keeps its title and identifier, and creates nothing. -/
theorem upsert_updates_existing_witness :
    monthIndex "June" = some 6 ∧
    lookupLabel [juneOldPage] (rowLabel juneRow) = some 3 ∧
    runUpsert [juneOldPage] 7 [juneRow] =
      some ([juneOldPage].map (updatePage 3 juneRow.avg (dateStr 2025 6)), 7, 0) ∧
    [juneOldPage].map (updatePage 3 juneRow.avg (dateStr 2025 6)) =
      [(⟨3, ["June 2025"], some 42, some "2025-06-01"⟩ : Page)] :=
  ⟨by decide, by decide,
    (upsert_updates_existing [juneOldPage] 7 juneRow 6 3 (by decide) (by decide)).1,
    by decide⟩

/-- C10: the existing-record lookup keys a page by the plain text of its
first title fragment only, so when no page's first fragment equals an
aggregate row's label the row is created as a new record — even if some
page's fragments concatenate to exactly that label. -/
theorem upsert_keyed_by_first_fragment (st : List Page) (ctr : Nat) (r : AggRow)
    (k : Nat) (hk : monthIndex r.month = some k)
    (hfrag : ∀ p ∈ st, p.title.head? ≠ some (rowLabel r)) :
    runUpsert st ctr [r] =
      some (st ++ [⟨ctr, [rowLabel r], r.avg, some (dateStr r.year k)⟩],
        ctr + 1, 1) := by
  rw [runUpsert, runRows]
  simp only [hk, lookupLabel_eq_none_of_heads st (rowLabel r) hfrag]
  rw [runRows]

/-- Witness for C10: a page whose two title fragments concatenate to
"June 2025" (but whose first fragment is "June ") does not match the label
"June 2025", so the upsert creates a duplicate record for the label. -/
theorem upsert_keyed_by_first_fragment_witness :
    String.join fragPage.title = rowLabel juneRow ∧
    (∀ p ∈ [fragPage], p.title.head? ≠ some (rowLabel juneRow)) ∧
    monthIndex "June" = some 6 ∧
    runUpsert [fragPage] 6 [juneRow] =
      some ([fragPage, ⟨6, ["June 2025"], some 42, some "2025-06-01"⟩], 7, 1) := by
  refine ⟨by decide, by decide, by decide, ?_⟩
  rw [upsert_keyed_by_first_fragment [fragPage] 6 juneRow 6 (by decide) (by decide)]
  decide

/-! ### Lemmas towards upsert idempotence: update-sequence algebra -/

theorem applyOp_id (p : Page) (o : UpdOp) : (applyOp p o).id = p.id := by
  rw [applyOp, updatePage]
  by_cases h : p.id = o.1
  · rw [if_pos h]
  · rw [if_neg h]

theorem applyOp_title (p : Page) (o : UpdOp) : (applyOp p o).title = p.title := by
  rw [applyOp, updatePage]
  by_cases h : p.id = o.1
  · rw [if_pos h]
  · rw [if_neg h]

theorem applyOps_id : ∀ (ops : List UpdOp) (p : Page), (applyOps ops p).id = p.id := by
  intro ops
  induction ops with
  | nil => intro p; rfl
  | cons o ops ih =>
    intro p
    show (applyOps ops (applyOp p o)).id = p.id
    rw [ih, applyOp_id]

theorem applyOps_title :
    ∀ (ops : List UpdOp) (p : Page), (applyOps ops p).title = p.title := by
  intro ops
  induction ops with
  | nil => intro p; rfl
  | cons o ops ih =>
    intro p
    show (applyOps ops (applyOp p o)).title = p.title
    rw [ih, applyOp_title]

theorem applyOps_append (a b : List UpdOp) (p : Page) :
    applyOps (a ++ b) p = applyOps b (applyOps a p) := by
  rw [applyOps, applyOps, applyOps, List.foldl_append]

theorem applyOps_of_ne :
    ∀ (ops : List UpdOp) (p : Page), (∀ o ∈ ops, o.1 ≠ p.id) →
      applyOps ops p = p := by
  intro ops
  induction ops with
  | nil => intro p _; rfl
  | cons o ops ih =>
    intro p h
    show applyOps ops (applyOp p o) = p
    have ho : applyOp p o = p := by
      rw [applyOp, updatePage,
        if_neg (fun he => h o (List.mem_cons_self _ _) he.symm)]
    rw [ho]
    exact ih p (fun o' ho' => h o' (List.mem_cons_of_mem _ ho'))

theorem applyOps_filter :
    ∀ (ops : List UpdOp) (p : Page),
      applyOps ops p = applyOps (ops.filter (fun o => decide (o.1 = p.id))) p := by
  intro ops
  induction ops with
  | nil => intro p; rfl
  | cons o ops ih =>
    intro p
    show applyOps ops (applyOp p o) = _
    by_cases ho : o.1 = p.id
    · rw [List.filter_cons_of_pos (by simpa using ho)]
      show _ = applyOps _ (applyOp p o)
      have hip := ih (applyOp p o)
      rw [applyOp_id] at hip
      exact hip
    · rw [List.filter_cons_of_neg (by simpa using ho)]
      have hop : applyOp p o = p := by
        rw [applyOp, updatePage, if_neg (fun he => ho he.symm)]
      rw [hop]
      exact ih p

theorem applyOps_const_pid :
    ∀ (ops : List UpdOp) (p : Page), (∀ o ∈ ops, o.1 = p.id) →
      applyOps ops p =
        match ops.getLast? with
        | none => p
        | some o => { p with avg := o.2.1, date := some o.2.2 } := by
  intro ops
  induction ops using List.reverseRecOn with
  | nil => intro p _; rfl
  | append_singleton ops o ih =>
    intro p h
    rw [applyOps_append, List.getLast?_concat]
    have hlast : applyOp (applyOps ops p) o =
        { applyOps ops p with avg := o.2.1, date := some o.2.2 } := by
      rw [applyOp, updatePage,
        if_pos (by rw [applyOps_id]; exact (h o (by simp)).symm)]
    show applyOp (applyOps ops p) o = _
    rw [hlast, ih p (fun o' ho' => h o' (by simp [ho']))]
    cases hl : ops.getLast? with
    | none => rfl
    | some o' => rfl

/-! ### Lemmas towards upsert idempotence: run decomposition -/

theorem updOf_eq_map (m : String → Option Nat) :
    ∀ (rows : List AggRow) (st : List Page),
      updOf m rows st = st.map (applyOps (opsOf m rows)) := by
  intro rows
  induction rows with
  | nil =>
    intro st
    rw [updOf, opsOf]
    exact (List.map_id st).symm
  | cons r rs ih =>
    intro st
    rw [updOf, opsOf]
    cases hk : monthIndex r.month with
    | none =>
      simp only [hk]
      exact ih st
    | some k =>
      cases hm : m (rowLabel r) with
      | none =>
        simp only [hk, hm]
        exact ih st
      | some pid =>
        simp only [hk, hm]
        rw [ih, List.map_map]
        rfl

theorem opsOf_mem_spec (m : String → Option Nat) :
    ∀ (rows : List AggRow) (o : UpdOp), o ∈ opsOf m rows →
      ∃ r ∈ rows, ∃ k, monthIndex r.month = some k ∧
        m (rowLabel r) = some o.1 ∧ o.2.1 = r.avg ∧ o.2.2 = dateStr r.year k := by
  intro rows
  induction rows with
  | nil => intro o ho; cases ho
  | cons r rs ih =>
    intro o ho
    rw [opsOf] at ho
    cases hk : monthIndex r.month with
    | none =>
      simp only [hk] at ho
      obtain ⟨r', hr', hrest⟩ := ih o ho
      exact ⟨r', List.mem_cons_of_mem _ hr', hrest⟩
    | some k =>
      simp only [hk] at ho
      cases hm : m (rowLabel r) with
      | none =>
        simp only [hm] at ho
        obtain ⟨r', hr', hrest⟩ := ih o ho
        exact ⟨r', List.mem_cons_of_mem _ hr', hrest⟩
      | some pid =>
        simp only [hm] at ho
        rcases List.mem_cons.mp ho with rfl | ho'
        · exact ⟨r, List.mem_cons_self _ _, k, hk, hm, rfl, rfl⟩
        · obtain ⟨r', hr', hrest⟩ := ih _ ho'
          exact ⟨r', List.mem_cons_of_mem _ hr', hrest⟩

theorem runRows_months (m : String → Option Nat) :
    ∀ (rows : List AggRow) (st : List Page) (ctr cr : Nat) out,
      runRows m rows st ctr cr = some out →
      ∀ r ∈ rows, (monthIndex r.month).isSome := by
  intro rows
  induction rows with
  | nil => intro st ctr cr out _ r hr; cases hr
  | cons r rs ih =>
    intro st ctr cr out h r' hr'
    rw [runRows] at h
    cases hk : monthIndex r.month with
    | none =>
      simp only [hk] at h
      exact Option.noConfusion h
    | some k =>
      simp only [hk] at h
      rcases List.mem_cons.mp hr' with rfl | hr'
      · rw [hk]; rfl
      · cases hm : m (rowLabel r) with
        | some pid =>
          simp only [hm] at h
          exact ih _ _ _ _ h r' hr'
        | none =>
          simp only [hm] at h
          exact ih _ _ _ _ h r' hr'

theorem createdOf_mem_spec (m : String → Option Nat) :
    ∀ (rows : List AggRow) (c : Nat) (p : Page), p ∈ createdOf m c rows →
      ∃ r ∈ rows, ∃ k, monthIndex r.month = some k ∧ m (rowLabel r) = none ∧
        p.title = [rowLabel r] ∧ p.avg = r.avg ∧
        p.date = some (dateStr r.year k) ∧ c ≤ p.id := by
  intro rows
  induction rows with
  | nil => intro c p hp; cases hp
  | cons r rs ih =>
    intro c p hp
    rw [createdOf] at hp
    cases hk : monthIndex r.month with
    | none =>
      simp only [hk] at hp
      obtain ⟨r', hr', hrest⟩ := ih c p hp
      exact ⟨r', List.mem_cons_of_mem _ hr', hrest⟩
    | some k =>
      simp only [hk] at hp
      cases hm : m (rowLabel r) with
      | some pid =>
        simp only [hm] at hp
        obtain ⟨r', hr', hrest⟩ := ih c p hp
        exact ⟨r', List.mem_cons_of_mem _ hr', hrest⟩
      | none =>
        simp only [hm] at hp
        rcases List.mem_cons.mp hp with rfl | hp'
        · exact ⟨r, List.mem_cons_self _ _, k, hk, hm, rfl, rfl, rfl, Nat.le_refl _⟩
        · obtain ⟨r', hr', k', hk', hm', ht', ha', hd', hc'⟩ := ih (c + 1) p hp'
          exact ⟨r', List.mem_cons_of_mem _ hr', k', hk', hm', ht', ha', hd',
            Nat.le_of_succ_le hc'⟩

theorem createdOf_id_lt (m : String → Option Nat) :
    ∀ (rows : List AggRow) (c : Nat) (p : Page), p ∈ createdOf m c rows →
      p.id < c + (createdOf m c rows).length := by
  intro rows
  induction rows with
  | nil => intro c p hp; cases hp
  | cons r rs ih =>
    intro c p hp
    rw [createdOf] at hp ⊢
    cases hk : monthIndex r.month with
    | none =>
      simp only [hk] at hp ⊢
      exact ih c p hp
    | some k =>
      simp only [hk] at hp ⊢
      cases hm : m (rowLabel r) with
      | some pid =>
        simp only [hm] at hp ⊢
        exact ih c p hp
      | none =>
        simp only [hm] at hp ⊢
        rw [List.length_cons]
        rcases List.mem_cons.mp hp with rfl | hp'
        · show c < c + _
          omega
        · have := ih (c + 1) p hp'
          omega

theorem createdOf_ids_nodup (m : String → Option Nat) :
    ∀ (rows : List AggRow) (c : Nat), ((createdOf m c rows).map Page.id).Nodup := by
  intro rows
  induction rows with
  | nil => intro c; simp [createdOf]
  | cons r rs ih =>
    intro c
    rw [createdOf]
    cases hk : monthIndex r.month with
    | none => simp only [hk]; exact ih c
    | some k =>
      cases hm : m (rowLabel r) with
      | some pid => simp only [hk, hm]; exact ih c
      | none =>
        simp only [hk, hm]
        rw [List.map_cons]
        refine List.nodup_cons.mpr ⟨?_, ih (c + 1)⟩
        intro hmem
        rcases List.mem_map.mp hmem with ⟨q, hq, hqid⟩
        obtain ⟨r', hr', k', hk', hm', ht', ha', hd', hle⟩ :=
          createdOf_mem_spec m rs (c + 1) q hq
        have hqc : q.id = c := hqid
        omega

theorem createdOf_head_of_createRow (m : String → Option Nat) :
    ∀ (rows : List AggRow) (c : Nat) (r : AggRow) (k : Nat), r ∈ rows →
      monthIndex r.month = some k → m (rowLabel r) = none →
      ∃ p ∈ createdOf m c rows, p.title.head? = some (rowLabel r) := by
  intro rows
  induction rows with
  | nil => intro c r k hr; cases hr
  | cons r' rs ih =>
    intro c r k hr hk hm
    rw [createdOf]
    cases hk' : monthIndex r'.month with
    | none =>
      simp only [hk']
      rcases List.mem_cons.mp hr with rfl | hr2
      · rw [hk] at hk'; cases hk'
      · exact ih c r k hr2 hk hm
    | some k' =>
      cases hm' : m (rowLabel r') with
      | some pid =>
        simp only [hk', hm']
        rcases List.mem_cons.mp hr with rfl | hr2
        · rw [hm] at hm'; cases hm'
        · exact ih c r k hr2 hk hm
      | none =>
        simp only [hk', hm']
        rcases List.mem_cons.mp hr with rfl | hr2
        · exact ⟨_, List.mem_cons_self _ _, rfl⟩
        · obtain ⟨p, hp, hhead⟩ := ih (c + 1) r k hr2 hk hm
          exact ⟨p, List.mem_cons_of_mem _ hp, hhead⟩

theorem createdOf_eq_nil (m : String → Option Nat) :
    ∀ (rows : List AggRow) (c : Nat),
      (∀ r ∈ rows, (monthIndex r.month).isSome → (m (rowLabel r)).isSome) →
      createdOf m c rows = [] := by
  intro rows
  induction rows with
  | nil => intro c _; rfl
  | cons r rs ih =>
    intro c h
    rw [createdOf]
    cases hk : monthIndex r.month with
    | none =>
      simp only [hk]
      exact ih c (fun r' hr' => h r' (List.mem_cons_of_mem _ hr'))
    | some k =>
      cases hm : m (rowLabel r) with
      | some pid =>
        simp only [hk, hm]
        exact ih c (fun r' hr' => h r' (List.mem_cons_of_mem _ hr'))
      | none =>
        have := h r (List.mem_cons_self _ _) (by rw [hk]; rfl)
        rw [hm] at this
        cases this

/-! ### Lemmas towards upsert idempotence: the label lookup -/

theorem lookupLabel_append (A B : List Page) (lab : String) :
    lookupLabel (A ++ B) lab = (lookupLabel B lab).or (lookupLabel A lab) := by
  induction A with
  | nil =>
    rw [List.nil_append, lookupLabel]
    exact Option.or_none.symm
  | cons p A ih =>
    rw [List.cons_append, lookupLabel, ih, lookupLabel, Option.or_assoc]

theorem lookupLabel_map_pres (f : Page → Page) (hid : ∀ p, (f p).id = p.id)
    (ht : ∀ p, (f p).title = p.title) :
    ∀ (st : List Page) (lab : String),
      lookupLabel (st.map f) lab = lookupLabel st lab := by
  intro st
  induction st with
  | nil => intro lab; rfl
  | cons p ps ih =>
    intro lab
    rw [List.map_cons, lookupLabel, lookupLabel, ih]
    have hhm : headMatch lab (f p) = headMatch lab p := by
      simp only [headMatch, ht p, hid p]
    rw [hhm]

theorem lookupLabel_mem :
    ∀ (st : List Page) (lab : String) (i : Nat), lookupLabel st lab = some i →
      ∃ p ∈ st, p.id = i ∧ p.title.head? = some lab := by
  intro st
  induction st with
  | nil => intro lab i h; cases h
  | cons p ps ih =>
    intro lab i h
    rw [lookupLabel] at h
    cases hl : lookupLabel ps lab with
    | some j =>
      rw [hl] at h
      have h2 : some j = some i := h
      cases h2
      obtain ⟨q, hq, hqs⟩ := ih lab _ hl
      exact ⟨q, List.mem_cons_of_mem _ hq, hqs⟩
    | none =>
      rw [hl] at h
      replace h : headMatch lab p = some i := h
      cases hh : p.title.head? with
      | none =>
        simp only [headMatch, hh] at h
        exact Option.noConfusion h
      | some t =>
        simp only [headMatch, hh] at h
        by_cases hte : t = lab
        · rw [if_pos hte] at h
          cases h
          exact ⟨p, List.mem_cons_self _ _, rfl, by rw [hh, hte]⟩
        · rw [if_neg hte] at h
          exact Option.noConfusion h

theorem lookupLabel_isSome_of_head :
    ∀ (st : List Page) (lab : String) (p : Page), p ∈ st →
      p.title.head? = some lab → (lookupLabel st lab).isSome := by
  intro st
  induction st with
  | nil => intro lab p hp; cases hp
  | cons q ps ih =>
    intro lab p hp hh
    rw [lookupLabel]
    cases hl : lookupLabel ps lab with
    | some j => rfl
    | none =>
      show (headMatch lab q).isSome = true
      rcases List.mem_cons.mp hp with rfl | hp'
      · simp only [headMatch, hh, if_pos rfl]
        rfl
      · have := ih lab p hp' hh
        rw [hl] at this
        cases this

theorem lookupLabel_none_heads :
    ∀ (st : List Page) (lab : String), lookupLabel st lab = none →
      ∀ p ∈ st, p.title.head? ≠ some lab := by
  intro st
  induction st with
  | nil => intro lab _ p hp; cases hp
  | cons q ps ih =>
    intro lab h p hp
    rw [lookupLabel] at h
    cases hl : lookupLabel ps lab with
    | some j =>
      rw [hl] at h
      exact Option.noConfusion h
    | none =>
      rw [hl] at h
      replace h : headMatch lab q = none := h
      rcases List.mem_cons.mp hp with rfl | hp'
      · intro hh
        simp only [headMatch, hh, if_pos rfl] at h
        exact Option.noConfusion h
      · exact ih lab hl p hp'

theorem eq_of_mem_nodup_ids (st : List Page) (hnd : (st.map Page.id).Nodup)
    {p q : Page} (hp : p ∈ st) (hq : q ∈ st) (he : p.id = q.id) : p = q :=
  List.inj_on_of_nodup_map hnd hp hq he

theorem runRows_decomp (m : String → Option Nat) :
    ∀ (rows : List AggRow) (st : List Page) (ctr cr : Nat),
      (∀ r ∈ rows, (monthIndex r.month).isSome) →
      (∀ lab pid, m lab = some pid → pid < ctr) →
      (∀ p ∈ st, p.id < ctr) →
      runRows m rows st ctr cr =
        some (updOf m rows st ++ createdOf m ctr rows,
          ctr + (createdOf m ctr rows).length,
          cr + (createdOf m ctr rows).length) := by
  intro rows
  induction rows with
  | nil =>
    intro st ctr cr _ _ _
    rw [runRows, updOf, createdOf]
    simp
  | cons r rs ih =>
    intro st ctr cr hv hm hst
    have hksome := hv r (List.mem_cons_self _ _)
    cases hk : monthIndex r.month with
    | none => rw [hk] at hksome; cases hksome
    | some k =>
      rw [runRows]
      cases hmr : m (rowLabel r) with
      | some pid =>
        simp only [hk, hmr]
        have hids : ∀ p ∈ st.map (updatePage pid r.avg (dateStr r.year k)),
            p.id < ctr := by
          intro p hp
          rcases List.mem_map.mp hp with ⟨q, hq, rfl⟩
          have hqid : (updatePage pid r.avg (dateStr r.year k) q).id = q.id := by
            rw [updatePage]
            by_cases h : q.id = pid
            · rw [if_pos h]
            · rw [if_neg h]
          rw [hqid]
          exact hst q hq
        rw [ih (st.map (updatePage pid r.avg (dateStr r.year k))) ctr cr
          (fun r' hr' => hv r' (List.mem_cons_of_mem _ hr')) hm hids]
        have h1 : updOf m (r :: rs) st =
            updOf m rs (st.map (updatePage pid r.avg (dateStr r.year k))) := by
          rw [updOf]
          simp only [hk, hmr]
        have h2 : createdOf m ctr (r :: rs) = createdOf m ctr rs := by
          rw [createdOf]
          simp only [hk, hmr]
        rw [h1, h2]
      | none =>
        simp only [hk, hmr]
        have hids2 : ∀ p ∈ st ++ [(⟨ctr, [rowLabel r], r.avg,
            some (dateStr r.year k)⟩ : Page)], p.id < ctr + 1 := by
          intro p hp
          rcases List.mem_append.mp hp with hp' | hp'
          · exact Nat.lt_succ_of_lt (hst p hp')
          · rcases List.mem_singleton.mp hp' with rfl
            exact Nat.lt_succ_self ctr
        rw [ih (st ++ [(⟨ctr, [rowLabel r], r.avg, some (dateStr r.year k)⟩ : Page)])
          (ctr + 1) (cr + 1)
          (fun r' hr' => hv r' (List.mem_cons_of_mem _ hr'))
          (fun lab pid hl => Nat.lt_succ_of_lt (hm lab pid hl)) hids2]
        have h1 : updOf m (r :: rs) st = updOf m rs st := by
          rw [updOf]
          simp only [hk, hmr]
        have h2 : createdOf m ctr (r :: rs) =
            (⟨ctr, [rowLabel r], r.avg, some (dateStr r.year k)⟩ : Page) ::
              createdOf m (ctr + 1) rs := by
          rw [createdOf]
          simp only [hk, hmr]
        have h3 : updOf m rs
              (st ++ [(⟨ctr, [rowLabel r], r.avg, some (dateStr r.year k)⟩ : Page)]) =
            updOf m rs st ++
              [(⟨ctr, [rowLabel r], r.avg, some (dateStr r.year k)⟩ : Page)] := by
          rw [updOf_eq_map, updOf_eq_map, List.map_append, List.map_singleton]
          congr 1
          rw [applyOps_of_ne]
          intro o ho
          obtain ⟨r', hr', k', hk', hmo, ha, hd⟩ := opsOf_mem_spec m rs o ho
          have hlt := hm _ _ hmo
          intro he
          have hcc : (⟨ctr, [rowLabel r], r.avg,
            some (dateStr r.year k)⟩ : Page).id = ctr := rfl
          rw [hcc] at he
          omega
        rw [h1, h2, h3, List.append_assoc, List.singleton_append, List.length_cons]
        have e1 : ctr + 1 + (createdOf m (ctr + 1) rs).length =
            ctr + ((createdOf m (ctr + 1) rs).length + 1) := by omega
        have e2 : cr + 1 + (createdOf m (ctr + 1) rs).length =
            cr + ((createdOf m (ctr + 1) rs).length + 1) := by omega
        rw [e1, e2]

/-! ### Lemmas towards upsert idempotence: per-page update characterization -/

theorem getLast?_cons_ne_none {α : Type} (a : α) :
    ∀ t : List α, (a :: t).getLast? ≠ none := by
  intro t
  induction t generalizing a with
  | nil => simp
  | cons b t ih =>
    rw [List.getLast?_cons_cons]
    exact ih b

theorem opsOf_filter_congr (m0 m1 : String → Option Nat) (pid : Nat)
    (hcong : ∀ lab, m0 lab = m1 lab ∨
      (m0 lab = none ∧ ∀ j, m1 lab = some j → j ≠ pid)) :
    ∀ rows : List AggRow,
      (opsOf m1 rows).filter (fun o => decide (o.1 = pid)) =
        (opsOf m0 rows).filter (fun o => decide (o.1 = pid)) := by
  intro rows
  induction rows with
  | nil => rfl
  | cons r rs ih =>
    rw [opsOf, opsOf]
    cases hk : monthIndex r.month with
    | none =>
      simp only [hk]
      exact ih
    | some k =>
      cases hm1 : m1 (rowLabel r) with
      | none =>
        have hm0 : m0 (rowLabel r) = none := by
          rcases hcong (rowLabel r) with heq | ⟨h0, _⟩
          · rw [heq, hm1]
          · exact h0
        simp only [hk, hm1, hm0]
        exact ih
      | some j =>
        rcases hcong (rowLabel r) with heq | ⟨h0, h1⟩
        · have hm0 : m0 (rowLabel r) = some j := by rw [heq, hm1]
          simp only [hk, hm1, hm0]
          by_cases hj : j = pid
          · rw [List.filter_cons_of_pos (by simpa using hj),
              List.filter_cons_of_pos (by simpa using hj), ih]
          · rw [List.filter_cons_of_neg (by simpa using hj),
              List.filter_cons_of_neg (by simpa using hj)]
            exact ih
        · have hj := h1 j hm1
          simp only [hk, hm1, h0]
          rw [List.filter_cons_of_neg (by simpa using hj)]
          exact ih

theorem opsOf_filter_label (m1 : String → Option Nat) (qid : Nat) (lq : String)
    (hq : m1 lq = some qid)
    (huniq : ∀ lab, m1 lab = some qid → lab = lq) :
    ∀ rows : List AggRow, (∀ r ∈ rows, (monthIndex r.month).isSome) →
      (opsOf m1 rows).filter (fun o => decide (o.1 = qid)) =
        (rows.filter (fun r => decide (rowLabel r = lq))).map
          (fun r => (qid, r.avg, dateStr r.year ((monthIndex r.month).getD 0))) := by
  intro rows
  induction rows with
  | nil => intro _; rfl
  | cons r rs ih =>
    intro hv
    have hvtail : ∀ r' ∈ rs, (monthIndex r'.month).isSome :=
      fun r' hr' => hv r' (List.mem_cons_of_mem _ hr')
    have hkopt := hv r (List.mem_cons_self _ _)
    cases hk : monthIndex r.month with
    | none => rw [hk] at hkopt; cases hkopt
    | some k =>
      rw [opsOf]
      cases hm1 : m1 (rowLabel r) with
      | none =>
        simp only [hk, hm1]
        have hne : ¬ rowLabel r = lq := by
          intro he
          rw [he, hq] at hm1
          cases hm1
        rw [List.filter_cons_of_neg (by simpa using hne)]
        exact ih hvtail
      | some pid =>
        simp only [hk, hm1]
        by_cases hL : rowLabel r = lq
        · have hpid : pid = qid := by
            rw [hL, hq] at hm1
            exact (Option.some.inj hm1).symm
          subst hpid
          rw [List.filter_cons_of_pos (by simp),
            List.filter_cons_of_pos (by simpa using hL), List.map_cons, hk]
          simp only [Option.getD_some]
          rw [ih hvtail]
        · have hpid : ¬ pid = qid := fun he => hL (huniq _ (by rw [hm1, he]))
          rw [List.filter_cons_of_neg (by simpa using hpid),
            List.filter_cons_of_neg (by simpa using hL)]
          exact ih hvtail

theorem createdOf_lookup_last (m : String → Option Nat) :
    ∀ (rows : List AggRow) (c : Nat) (lab : String) (i : Nat),
      (∀ r ∈ rows, (monthIndex r.month).isSome) →
      lookupLabel (createdOf m c rows) lab = some i →
      ∃ r k, lastRowWith lab rows = some r ∧ monthIndex r.month = some k ∧
        (⟨i, [lab], r.avg, some (dateStr r.year k)⟩ : Page) ∈ createdOf m c rows := by
  intro rows
  induction rows with
  | nil => intro c lab i _ h; cases h
  | cons r rs ih =>
    intro c lab i hv h
    have hvtail : ∀ r' ∈ rs, (monthIndex r'.month).isSome :=
      fun r' hr' => hv r' (List.mem_cons_of_mem _ hr')
    have hkopt := hv r (List.mem_cons_self _ _)
    cases hk : monthIndex r.month with
    | none => rw [hk] at hkopt; cases hkopt
    | some k =>
      rw [createdOf] at h ⊢
      cases hm : m (rowLabel r) with
      | some pid =>
        simp only [hk, hm] at h ⊢
        obtain ⟨r', k', hlast, hk', hmem⟩ := ih c lab i hvtail h
        refine ⟨r', k', ?_, hk', hmem⟩
        have hne : ¬ rowLabel r = lab := by
          intro he
          obtain ⟨p, hp, hpid, hph⟩ := lookupLabel_mem _ lab i h
          obtain ⟨r2, hr2, k2, hk2, hm2, ht2, _⟩ := createdOf_mem_spec m rs c p hp
          rw [ht2] at hph
          have hlab2 : rowLabel r2 = lab := by simpa using hph
          rw [← he] at hlab2
          rw [hlab2] at hm2
          rw [hm2] at hm
          cases hm
        rw [lastRowWith] at hlast ⊢
        rw [List.filter_cons_of_neg (by simpa using hne)]
        exact hlast
      | none =>
        simp only [hk, hm] at h ⊢
        rw [lookupLabel] at h
        cases hl : lookupLabel (createdOf m (c + 1) rs) lab with
        | some j =>
          rw [hl] at h
          have h2 : some j = some i := h
          cases h2
          obtain ⟨r', k', hlast, hk', hmem⟩ := ih (c + 1) lab _ hvtail hl
          refine ⟨r', k', ?_, hk', List.mem_cons_of_mem _ hmem⟩
          rw [lastRowWith] at hlast ⊢
          by_cases hL : rowLabel r = lab
          · rw [List.filter_cons_of_pos (by simpa using hL)]
            cases hfl : rs.filter (fun r0 => decide (rowLabel r0 = lab)) with
            | nil =>
              rw [hfl] at hlast
              cases hlast
            | cons a t =>
              rw [hfl] at hlast
              rw [List.getLast?_cons_cons]
              exact hlast
          · rw [List.filter_cons_of_neg (by simpa using hL)]
            exact hlast
        | none =>
          rw [hl] at h
          replace h : headMatch lab
              (⟨c, [rowLabel r], r.avg, some (dateStr r.year k)⟩ : Page) = some i := h
          simp only [headMatch, List.head?_cons] at h
          by_cases hL : rowLabel r = lab
          · subst hL
            rw [if_pos rfl] at h
            have h2 : c = i := Option.some.inj h
            subst h2
            have hnone : ∀ r' ∈ rs, ¬ rowLabel r' = rowLabel r := by
              intro r' hr' he
              have hk2opt := hvtail r' hr'
              cases hkk : monthIndex r'.month with
              | none => rw [hkk] at hk2opt; cases hk2opt
              | some k2 =>
                have hmr' : m (rowLabel r') = none := by rw [he]; exact hm
                obtain ⟨p, hp, hph⟩ :=
                  createdOf_head_of_createRow m rs (c + 1) r' k2 hr' hkk hmr'
                have hnh := lookupLabel_none_heads _ (rowLabel r) hl p hp
                rw [he] at hph
                exact hnh hph
            refine ⟨r, k, ?_, hk, List.mem_cons_self _ _⟩
            rw [lastRowWith, List.filter_cons_of_pos (by simp)]
            have hfl : rs.filter (fun r0 => decide (rowLabel r0 = rowLabel r)) = [] :=
              List.filter_eq_nil.mpr (fun a ha => by simpa using hnone a ha)
            rw [hfl]
            rfl
          · rw [if_neg hL] at h
            exact Option.noConfusion h

/-- C3: the reconciler's upsert is idempotent per label.  Starting from any
collection state with distinct identifiers, one run produces a state on
which a second run with the same aggregate input performs zero creates and
leaves the page list — labels, values and dates included — exactly as the
first run left it: revised values are overwritten in place, never appended
as duplicates. -/
theorem upsert_idempotent (st : List Page) (ctr : Nat) (rows : List AggRow)
    (st1 : List Page) (ctr1 cr1 : Nat)
    (hids : ∀ p ∈ st, p.id < ctr)
    (hnd : (st.map Page.id).Nodup)
    (h1 : runUpsert st ctr rows = some (st1, ctr1, cr1)) :
    runUpsert st1 ctr1 rows = some (st1, ctr1, 0) := by
  rw [runUpsert] at h1
  have hv : ∀ r ∈ rows, (monthIndex r.month).isSome :=
    runRows_months (lookupLabel st) rows st ctr 0 _ h1
  have hm0b : ∀ lab pid, lookupLabel st lab = some pid → pid < ctr := by
    intro lab pid hl
    obtain ⟨p, hp, hpid, _⟩ := lookupLabel_mem st lab pid hl
    exact hpid ▸ hids p hp
  rw [runRows_decomp (lookupLabel st) rows st ctr 0 hv hm0b hids] at h1
  have h1' := Option.some.inj h1
  have hst1 : st1 =
      updOf (lookupLabel st) rows st ++ createdOf (lookupLabel st) ctr rows :=
    (congrArg Prod.fst h1').symm
  have hctr1 : ctr1 = ctr + (createdOf (lookupLabel st) ctr rows).length :=
    (congrArg Prod.fst (congrArg Prod.snd h1')).symm
  have hupdmap : updOf (lookupLabel st) rows st =
      st.map (applyOps (opsOf (lookupLabel st) rows)) := updOf_eq_map _ rows st
  have hlookupd : ∀ lab,
      lookupLabel (updOf (lookupLabel st) rows st) lab = lookupLabel st lab := by
    intro lab
    rw [hupdmap]
    exact lookupLabel_map_pres _ (fun p => applyOps_id _ p)
      (fun p => applyOps_title _ p) st lab
  have hm1or : ∀ lab, lookupLabel st1 lab =
      (lookupLabel (createdOf (lookupLabel st) ctr rows) lab).or
        (lookupLabel st lab) := by
    intro lab
    rw [hst1, lookupLabel_append, hlookupd]
  have hcreatedlab : ∀ lab j,
      lookupLabel (createdOf (lookupLabel st) ctr rows) lab = some j →
      lookupLabel st lab = none ∧ ctr ≤ j := by
    intro lab j hj
    obtain ⟨p, hp, hpid, hph⟩ := lookupLabel_mem _ lab j hj
    obtain ⟨r2, hr2, k2, hk2, hm2, ht2, ha2, hd2, hc2⟩ :=
      createdOf_mem_spec _ rows ctr p hp
    rw [ht2] at hph
    have hl2 : rowLabel r2 = lab := by simpa using hph
    exact ⟨by rw [← hl2]; exact hm2, hpid ▸ hc2⟩
  have hupdids :
      (updOf (lookupLabel st) rows st).map Page.id = st.map Page.id := by
    rw [hupdmap, List.map_map]
    exact List.map_congr_left (fun p _ => applyOps_id _ p)
  have hcreatedge : ∀ p ∈ createdOf (lookupLabel st) ctr rows, ctr ≤ p.id := by
    intro p hp
    obtain ⟨r2, _, k2, _, _, _, _, _, hc2⟩ := createdOf_mem_spec _ rows ctr p hp
    exact hc2
  have hst1nd : (st1.map Page.id).Nodup := by
    rw [hst1, List.map_append, hupdids]
    refine List.Nodup.append hnd (createdOf_ids_nodup _ rows ctr) ?_
    intro a ha hb
    rcases List.mem_map.mp ha with ⟨p, hp, rfl⟩
    rcases List.mem_map.mp hb with ⟨q, hq, hqe⟩
    have hl := hids p hp
    have hg := hcreatedge q hq
    omega
  have hst1lt : ∀ p ∈ st1, p.id < ctr1 := by
    intro p hp
    rw [hst1] at hp
    rcases List.mem_append.mp hp with hp' | hp'
    · have hmem : p.id ∈ (updOf (lookupLabel st) rows st).map Page.id :=
        List.mem_map_of_mem _ hp'
      rw [hupdids] at hmem
      rcases List.mem_map.mp hmem with ⟨q, hq, hqe⟩
      have := hids q hq
      rw [hctr1]
      omega
    · have := createdOf_id_lt _ rows ctr p hp'
      rw [hctr1]
      exact this
  have hm1b : ∀ lab pid, lookupLabel st1 lab = some pid → pid < ctr1 := by
    intro lab pid hl
    obtain ⟨p, hp, hpid, _⟩ := lookupLabel_mem st1 lab pid hl
    exact hpid ▸ hst1lt p hp
  have hall : ∀ r ∈ rows, (monthIndex r.month).isSome →
      (lookupLabel st1 (rowLabel r)).isSome := by
    intro r hr hmo
    rw [hm1or]
    cases hc : lookupLabel (createdOf (lookupLabel st) ctr rows) (rowLabel r) with
    | some j => rfl
    | none =>
      cases hc0 : lookupLabel st (rowLabel r) with
      | some pid => rfl
      | none =>
        exfalso
        cases hk : monthIndex r.month with
        | none => rw [hk] at hmo; simp at hmo
        | some k =>
          obtain ⟨p, hp, hph⟩ :=
            createdOf_head_of_createRow (lookupLabel st) rows ctr r k hr hk hc0
          have hs := lookupLabel_isSome_of_head _ (rowLabel r) p hp hph
          rw [hc] at hs
          simp at hs
  have hcreated2 : createdOf (lookupLabel st1) ctr1 rows = [] :=
    createdOf_eq_nil _ rows ctr1 hall
  have hfix : updOf (lookupLabel st1) rows st1 = st1 := by
    rw [updOf_eq_map]
    have hpoint : ∀ q ∈ st1, applyOps (opsOf (lookupLabel st1) rows) q = q := by
      intro q hq
      rw [hst1] at hq
      rcases List.mem_append.mp hq with hq' | hq'
      · -- q is an updated pre-existing page
        rw [hupdmap] at hq'
        rcases List.mem_map.mp hq' with ⟨q0, hq0, rfl⟩
        have hqlt : q0.id < ctr := hids q0 hq0
        have hcongq : ∀ lab, lookupLabel st lab = lookupLabel st1 lab ∨
            (lookupLabel st lab = none ∧
              ∀ j, lookupLabel st1 lab = some j → j ≠ q0.id) := by
          intro lab
          cases hc : lookupLabel (createdOf (lookupLabel st) ctr rows) lab with
          | none =>
            left
            rw [hm1or, hc]
            rfl
          | some j =>
            right
            obtain ⟨hnone, hge⟩ := hcreatedlab lab j hc
            refine ⟨hnone, ?_⟩
            intro j' hj'
            rw [hm1or, hc] at hj'
            have hjj : some j = some j' := hj'
            cases hjj
            omega
        have hfilt := opsOf_filter_congr (lookupLabel st) (lookupLabel st1)
          q0.id hcongq rows
        have hsub : ∀ o ∈ (opsOf (lookupLabel st) rows).filter
            (fun o => decide (o.1 = q0.id)), o.1 = q0.id := by
          intro o ho
          have hb := List.of_mem_filter ho
          exact of_decide_eq_true hb
        have hf1 : applyOps (opsOf (lookupLabel st1) rows)
              (applyOps (opsOf (lookupLabel st) rows) q0) =
            applyOps ((opsOf (lookupLabel st) rows).filter
              (fun o => decide (o.1 = q0.id)))
              (applyOps (opsOf (lookupLabel st) rows) q0) := by
          have h := applyOps_filter (opsOf (lookupLabel st1) rows)
            (applyOps (opsOf (lookupLabel st) rows) q0)
          rw [applyOps_id] at h
          rw [h, hfilt]
        cases hls : ((opsOf (lookupLabel st) rows).filter
            (fun o => decide (o.1 = q0.id))).getLast? with
        | none =>
          have hnil : (opsOf (lookupLabel st) rows).filter
              (fun o => decide (o.1 = q0.id)) = [] := by
            cases hfe : (opsOf (lookupLabel st) rows).filter
                (fun o => decide (o.1 = q0.id)) with
            | nil => rfl
            | cons a t =>
              rw [hfe] at hls
              exact absurd hls (getLast?_cons_ne_none a t)
          rw [hf1, hnil]
          rfl
        | some o =>
          have hqv : applyOps (opsOf (lookupLabel st) rows) q0 =
              { q0 with avg := o.2.1, date := some o.2.2 } := by
            rw [applyOps_filter _ q0, applyOps_const_pid _ q0 hsub, hls]
          have hfin := applyOps_const_pid
            ((opsOf (lookupLabel st) rows).filter (fun o => decide (o.1 = q0.id)))
            ({ q0 with avg := o.2.1, date := some o.2.2 } : Page)
            (fun o' ho' => hsub o' ho')
          rw [hf1, hqv, hfin, hls]
      · -- q is a freshly created page
        obtain ⟨rc, hrc, kc, hkc, hmc, htq, haq, hdq, hcq⟩ :=
          createdOf_mem_spec _ rows ctr q hq'
        have hqmem1 : q ∈ st1 := by
          rw [hst1]
          exact List.mem_append_right _ hq'
        cases hls : ((opsOf (lookupLabel st1) rows).filter
            (fun o => decide (o.1 = q.id))).getLast? with
        | none =>
          have hnil : (opsOf (lookupLabel st1) rows).filter
              (fun o => decide (o.1 = q.id)) = [] := by
            cases hfe : (opsOf (lookupLabel st1) rows).filter
                (fun o => decide (o.1 = q.id)) with
            | nil => rfl
            | cons a t =>
              rw [hfe] at hls
              exact absurd hls (getLast?_cons_ne_none a t)
          rw [applyOps_filter _ q, hnil]
          rfl
        | some o =>
          have hmemo : o ∈ (opsOf (lookupLabel st1) rows).filter
              (fun o => decide (o.1 = q.id)) := List.mem_of_mem_getLast? hls
          have ho1 : o.1 = q.id := by
            have hb := List.of_mem_filter hmemo
            exact of_decide_eq_true hb
          have homem : o ∈ opsOf (lookupLabel st1) rows :=
            List.mem_of_mem_filter hmemo
          obtain ⟨rh, hrh, kh, hkh, hmh, hoa, hod⟩ :=
            opsOf_mem_spec _ rows o homem
          rw [ho1] at hmh
          obtain ⟨p2, hp2, hp2id, hp2h⟩ :=
            lookupLabel_mem st1 (rowLabel rh) q.id hmh
          have hp2q : p2 = q := eq_of_mem_nodup_ids st1 hst1nd hp2 hqmem1 hp2id
          rw [hp2q, htq] at hp2h
          have hrhlab : rowLabel rh = rowLabel rc := by
            have hx := hp2h
            simp only [List.head?_cons, Option.some.injEq] at hx
            exact hx.symm
          have hqK : lookupLabel st1 (rowLabel rc) = some q.id := by
            rw [← hrhlab]
            exact hmh
          have huniq : ∀ lab, lookupLabel st1 lab = some q.id →
              lab = rowLabel rc := by
            intro lab hlab
            obtain ⟨p3, hp3, hp3id, hp3h⟩ := lookupLabel_mem st1 lab q.id hlab
            have hp3q : p3 = q := eq_of_mem_nodup_ids st1 hst1nd hp3 hqmem1 hp3id
            rw [hp3q, htq] at hp3h
            exact (by simpa using hp3h : rowLabel rc = lab).symm
          have hfl := opsOf_filter_label (lookupLabel st1) q.id (rowLabel rc)
            hqK huniq rows hv
          have hls2 := hls
          rw [hfl, List.getLast?_map] at hls2
          obtain ⟨rstar, hrstar, hfo⟩ := Option.map_eq_some'.mp hls2
          have hcreq : lookupLabel (createdOf (lookupLabel st) ctr rows)
              (rowLabel rc) = some q.id := by
            have hor := hm1or (rowLabel rc)
            rw [hqK, hmc] at hor
            cases hcc : lookupLabel (createdOf (lookupLabel st) ctr rows)
                (rowLabel rc) with
            | none =>
              rw [hcc] at hor
              exact Option.noConfusion hor
            | some j =>
              rw [hcc] at hor
              have hjq : some q.id = some j := hor
              cases hjq
              rfl
          obtain ⟨rstar2, kstar2, hlast2, hk2, hpagemem⟩ :=
            createdOf_lookup_last (lookupLabel st) rows ctr (rowLabel rc)
              q.id hv hcreq
          have hrr : rstar2 = rstar := by
            have e1 : lastRowWith (rowLabel rc) rows = some rstar := hrstar
            rw [hlast2] at e1
            exact Option.some.inj e1
          rw [hrr] at hk2 hpagemem
          have hqeq :
              (⟨q.id, [rowLabel rc], rstar.avg,
                some (dateStr rstar.year kstar2)⟩ : Page) = q := by
            refine eq_of_mem_nodup_ids st1 hst1nd ?_ hqmem1 rfl
            rw [hst1]
            exact List.mem_append_right _ hpagemem
          have hsub1 : ∀ o' ∈ (opsOf (lookupLabel st1) rows).filter
              (fun o => decide (o.1 = q.id)), o'.1 = q.id := by
            intro o' ho'
            have hb := List.of_mem_filter ho'
            exact of_decide_eq_true hb
          rw [applyOps_filter _ q, applyOps_const_pid _ q hsub1, hls]
          have hoval : o = (q.id, rstar.avg,
              dateStr rstar.year ((monthIndex rstar.month).getD 0)) := hfo.symm
          show ({ q with avg := o.2.1, date := some o.2.2 } : Page) = q
          rw [hoval]
          show ({ q with avg := rstar.avg, date := some (dateStr rstar.year ((monthIndex rstar.month).getD 0)) } : Page) = q
          rw [hk2]
          show ({ q with avg := rstar.avg, date := some (dateStr rstar.year kstar2) } : Page) = q
          have hqa : rstar.avg = q.avg := congrArg Page.avg hqeq
          have hqd : some (dateStr rstar.year kstar2) = q.date :=
            congrArg Page.date hqeq
          rw [hqa, hqd]
    calc st1.map (applyOps (opsOf (lookupLabel st1) rows)) =
        st1.map id := List.map_congr_left hpoint
      _ = st1 := List.map_id _
  rw [runUpsert, runRows_decomp (lookupLabel st1) rows st1 ctr1 0 hv hm1b hst1lt,
    hcreated2, List.append_nil, hfix]
  rfl

/-- Witness for C3: one run over a stale "May 2025" record updates it and
creates "June 2025"; the second run with the same input performs zero
creates and leaves the state untouched. -/
theorem upsert_idempotent_witness :
    ((∀ p ∈ idemSt, p.id < 4) ∧ (idemSt.map Page.id).Nodup ∧
      runUpsert idemSt 4 idemRows = some (idemSt1, 5, 1)) ∧
    runUpsert idemSt1 5 idemRows = some (idemSt1, 5, 0) :=
  ⟨⟨by decide, by decide, by decide⟩,
    upsert_idempotent idemSt 4 idemRows idemSt1 5 1 (by decide) (by decide)
      (by decide)⟩

end HTracker
